import Mathlib

/-!
Package chirp: a client for the BIRD control socket.

A shallow embedding of `src/chirp/chirp.go` together with the parts of the Go
standard library it runs on (`strings.Contains`, `net.Conn` reads and writes,
`bufio.Scanner` with its default `ScanLines` split function), followed by the
properties of the package proved over that embedding.

Go strings and byte slices are lists of bytes.  A method that mutates its
receiver takes the old state and returns the new one next to its Go results.
The mutex of `BIRDClient` has no effect on a single caller and is left out:
the embedding describes calls made one after another.
-/

namespace Chirp

/-- A Go `byte`. -/
abbrev Byte := UInt8

/-- The bytes of an ASCII string literal of the source. -/
def lit (s : String) : List Byte := s.toList.map (fun c => c.toNat.toUInt8)

/-- The newline byte. -/
abbrev NL : Byte := 10

/-- The carriage-return byte. -/
abbrev CR : Byte := 13

/-- Go `error` values that flow through the package.  `eof` is `io.EOF`,
`noProgress` is `io.ErrNoProgress`, `tooLong` is `bufio.ErrTooLong`, `netErr` is
an error reported by the socket (dial, read or write) with its message,
`errorf` is `fmt.Errorf` without `%w` and `wrapf` is `fmt.Errorf` whose format
ends in `%w`: the text before the verb and the wrapped error. -/
inductive GoError where
  | eof : GoError
  | noProgress : GoError
  | tooLong : GoError
  | netErr (msg : List Byte) : GoError
  | errorf (text : List Byte) : GoError
  | wrapf (text : List Byte) (cause : GoError) : GoError
  deriving DecidableEq, Repr

/-- The method `Error()` of an error: its text. -/
def GoError.Error : GoError → List Byte
  | .eof => lit "EOF"
  | .noProgress => lit "multiple Read calls return no data or error"
  | .tooLong => lit "bufio.Scanner: token too long"
  | .netErr msg => msg
  | .errorf text => text
  | .wrapf text cause => text ++ cause.Error

namespace strings

/-- Go `strings.Contains(s, substr)`: `substr` occurs in `s` as a contiguous
run of bytes. -/
def Contains : List Byte → List Byte → Bool
  | [], substr => substr.isEmpty
  | c :: s, substr => substr.isPrefixOf (c :: s) || Contains s substr

end strings

namespace net

/-- One end of a unix stream socket, with the behaviour of the peer and of the
operating system made explicit.

* `rx` are the segments the peer still delivers, in order; a `Read` returns at
  most one segment, or the part of it that fits the caller's buffer.
* `rxEnd` is what `Read` reports once `rx` is drained: `io.EOF` after a clean
  close by the peer, another error otherwise.
* `txOutcomes` are the results of the `Write` calls still to come, in order
  (`none` is success); when the list is used up every later `Write` succeeds.
* `writes` records the argument of every `Write` call made so far. -/
structure Conn where
  rx : List (List Byte)
  rxEnd : GoError
  txOutcomes : List (Option GoError)
  writes : List (List Byte)
  deriving DecidableEq, Repr

/-- The result of `Conn.Read`: the connection afterwards, the bytes stored in
the caller's buffer (their number is Go's `n`) and the error. -/
structure ReadResult where
  conn : Conn
  data : List Byte
  err : Option GoError
  deriving DecidableEq, Repr

/-- What a read of at most `n` bytes takes from the pending segments: a read
on a stream socket waits for at least one byte, so empty segments are passed
over; with nothing left the final condition `e` is reported. -/
def recv : List (List Byte) → GoError → Nat → List (List Byte) × List Byte × Option GoError
  | [], e, _ => ([], [], some e)
  | [] :: rest, e, n => recv rest e n
  | (x :: seg) :: rest, _, n =>
    if (x :: seg).length ≤ n then (rest, x :: seg, none)
    else ((x :: seg).drop n :: rest, (x :: seg).take n, none)

/-- Go `c.Read(p)` with `len(p) = n`. -/
def Conn.Read (c : Conn) (n : Nat) : ReadResult :=
  let r := recv c.rx c.rxEnd n
  { conn := { c with rx := r.1 }, data := r.2.1, err := r.2.2 }

/-- Go `c.Write(p)`: the call is recorded and its outcome is the next one the
environment holds. -/
def Conn.Write (c : Conn) (p : List Byte) : Conn × Option GoError :=
  match c.txOutcomes with
  | [] => ({ c with writes := c.writes ++ [p] }, none)
  | o :: rest => ({ c with txOutcomes := rest, writes := c.writes ++ [p] }, o)

/-- The bytes the peer still delivers, as one sequence. -/
def Conn.rxBytes (c : Conn) : List Byte := c.rx.flatten

end net

namespace bufio

/-- Go `bufio.MaxScanTokenSize = 64 * 1024`, the default `maxTokenSize` of a
`Scanner`. -/
def maxTokenSize : Nat := 64 * 1024

/-- Go `bufio.startBufSize`. -/
def startBufSize : Nat := 4096

/-- Go `bytes.IndexByte(data, c)`: the index of the first `c`, `none` for Go's
`-1`. -/
def IndexByte : List Byte → Byte → Option Nat
  | [], _ => none
  | x :: xs, c => if x = c then some 0 else (IndexByte xs c).map (· + 1)

/-- Go `bufio.dropCR`: drop one trailing carriage return. -/
def dropCR (data : List Byte) : List Byte :=
  if data.getLast? = some CR then data.dropLast else data

/-- Go `bufio.ScanLines`, the default split function: the advance and the
token (`none` is Go's `nil` token, a request for more data).  Its third
result, the error, is `nil` on every path and is left out. -/
def ScanLines (data : List Byte) (atEOF : Bool) : Nat × Option (List Byte) :=
  if atEOF && data.isEmpty then (0, none)
  else
    match IndexByte data NL with
    | some i => (i + 1, some (dropCR (data.take i)))
    | none => if atEOF then (data.length, some (dropCR data)) else (0, none)

/-- Go `bufio.Scanner` over a `net.Conn`.  `bufLen` is `len(s.buf)`, `data` is
the buffered and not yet consumed region `s.buf[s.start:s.end]`, so that
`s.end = start + data.length`; `token` is the last token returned by the split
function and `err` the sticky error.  The connection the scanner reads from is
the one of the client that owns the scanner and is passed to `Scan`. -/
structure Scanner where
  bufLen : Nat
  start : Nat
  data : List Byte
  token : List Byte
  err : Option GoError
  deriving DecidableEq, Repr

/-- Go `s.end`. -/
def Scanner.endIdx (s : Scanner) : Nat := s.start + s.data.length

/-- Go `bufio.NewScanner(r)`: no buffer yet, no error. -/
def NewScanner : Scanner :=
  { bufLen := 0, start := 0, data := [], token := [], err := none }

/-- Go `s.setErr(err)`: records the first error that is not `io.EOF`. -/
def Scanner.setErr (s : Scanner) (e : GoError) : Scanner :=
  if s.err = none ∨ s.err = some GoError.eof then { s with err := some e } else s

/-- Go `s.Err()`: the first error met that is not `io.EOF`. -/
def Scanner.Err (s : Scanner) : Option GoError :=
  if s.err = some GoError.eof then none else s.err

/-- Go `s.Text()`. -/
def Scanner.Text (s : Scanner) : List Byte := s.token

/-- The result of `Scan`: Go's boolean, the scanner and the connection
afterwards. -/
structure ScanResult where
  ok : Bool
  scanner : Scanner
  conn : net.Conn
  deriving DecidableEq, Repr

/-- The size of the buffer after `Scan` has grown a full one: twice the old
size, `startBufSize` for no buffer, at most `maxTokenSize`. -/
def newSize (bufLen : Nat) : Nat :=
  min (if bufLen * 2 = 0 then startBufSize else bufLen * 2) maxTokenSize

/-- The outcome of one iteration of the loop of `Scan`: the loop returns, or
it goes round again with the scanner and connection as they now are. -/
inductive Step where
  | done (r : ScanResult) : Step
  | more (s : Scanner) (c : net.Conn) : Step
  deriving DecidableEq, Repr

/-- The shift in Go `(*Scanner).Scan`: "shift data to beginning of buffer if
there's lots of empty space or space is needed". -/
def Scanner.shift (s : Scanner) : Scanner :=
  if 0 < s.start ∧ (s.endIdx = s.bufLen ∨ s.bufLen / 2 < s.start) then { s with start := 0 }
  else s

/-- The resize in Go `(*Scanner).Scan`: a new buffer of `newSize` bytes that
holds the data at its front. -/
def Scanner.grow (s : Scanner) : Scanner :=
  { s with bufLen := newSize s.bufLen, start := 0 }

/-- The read in Go `(*Scanner).Scan`: one `Read` into the free end of the
buffer, `s.buf[s.end:len(s.buf)]`.  A read that returns no byte and no error
returns the same on each of the hundred retries, which end in
`io.ErrNoProgress`.  `Conn.Read` never returns more bytes than it was asked
for (`Read_length_le`), so the `ErrBadReadCount` branch is left out. -/
def Scanner.readMore (s : Scanner) (c : net.Conn) : Scanner × net.Conn :=
  let rd := c.Read (s.bufLen - s.endIdx)
  let s4 : Scanner := { s with data := s.data ++ rd.data }
  let s5 : Scanner :=
    match rd.err with
    | some e => s4.setErr e
    | none => if rd.data.length = 0 then s4.setErr GoError.noProgress else s4
  (s5, rd.conn)

/-- The second half of an iteration of Go `(*Scanner).Scan`, "must read more
data": shift, then grow a full buffer or fail with `ErrTooLong` when it has
`maxTokenSize` bytes already, then read. -/
def fill (s1 : Scanner) (c : net.Conn) : Step :=
  let s2 := s1.shift
  if s2.endIdx = s2.bufLen then
    if maxTokenSize ≤ s2.bufLen then
      Step.done { ok := false, scanner := s2.setErr GoError.tooLong, conn := c }
    else
      let r := s2.grow.readMore c
      Step.more r.1 r.2
  else
    let r := s2.readMore c
    Step.more r.1 r.2

/-- One iteration of the loop of Go `(*Scanner).Scan`: offer the buffered data
to the split function and return the token if there is one; otherwise give up
if an error is pending, else read more data (`fill`).

`ScanLines` never returns an error and never advances past the data, so the
`ErrFinalToken`, negative-advance and advance-too-far branches are left out,
and so is the count of empty tokens, which `ScanLines` never yields without
advancing. -/
def scanStep (s : Scanner) (c : net.Conn) : Step :=
  let r := ScanLines s.data s.err.isSome
  let offered : Bool := decide (0 < s.data.length) || s.err.isSome
  if offered && r.2.isSome then
    Step.done { ok := true
                scanner := { s with start := s.start + r.1, data := s.data.drop r.1,
                                    token := r.2.getD [] }
                conn := c }
  else
    let s1 : Scanner :=
      if offered then { s with start := s.start + r.1, data := s.data.drop r.1, token := [] }
      else s
    if s1.err.isSome then
      Step.done { ok := false, scanner := { s1 with start := 0, data := [] }, conn := c }
    else fill s1 c

/-- The loop of Go `(*Scanner).Scan`, one iteration for each unit of fuel;
`none` when the fuel is used up before the loop returns. -/
def scanLoop : Nat → Scanner → net.Conn → Option ScanResult
  | 0, _, _ => none
  | fuel + 1, s, c =>
    match scanStep s c with
    | Step.done r => some r
    | Step.more s1 c1 => scanLoop fuel s1 c1

/-- Go `(*Scanner).Scan`.  Every iteration of the loop that does not return
takes at least one byte from the connection or records an error, and an
iteration that starts with an error recorded returns, so the loop returns
within the number of pending bytes plus two iterations (`scanLoop_total`). -/
def Scanner.Scan (s : Scanner) (c : net.Conn) : ScanResult :=
  (scanLoop (c.rxBytes.length + 2) s c).getD { ok := false, scanner := s, conn := c }

/-- The state of a scanner between calls: the buffered region lies inside the
buffer, and the buffer is no larger than `maxTokenSize`. -/
def Scanner.WF (s : Scanner) : Prop :=
  s.endIdx ≤ s.bufLen ∧ s.bufLen ≤ maxTokenSize

instance (s : Scanner) : Decidable s.WF :=
  inferInstanceAs (Decidable (s.endIdx ≤ s.bufLen ∧ s.bufLen ≤ maxTokenSize))

/-- The state of a scanner between calls, whatever the calls returned: it is
well formed, and once the end of the stream (`io.EOF`) is recorded nothing is
left in the buffer.  `NewScanner` is in this state and `Scan` keeps a scanner
in it (`NewScanner_Valid`, `Scan_Valid`). -/
def Scanner.Valid (s : Scanner) : Prop :=
  s.WF ∧ (s.err = some GoError.eof → s.data = [])

instance (s : Scanner) : Decidable s.Valid :=
  inferInstanceAs (Decidable (s.WF ∧ (s.err = some GoError.eof → s.data = [])))

/-- What `Scan` leaves untouched on the connection: the final condition of the
stream and everything about writes. -/
def Frame (c c1 : net.Conn) : Prop :=
  c1.rxEnd = c.rxEnd ∧ c1.txOutcomes = c.txOutcomes ∧ c1.writes = c.writes

end bufio

/-- Go `BIRDClient`, without its mutex. -/
structure BIRDClient where
  socket : List Byte
  conn : net.Conn
  scanner : bufio.Scanner
  deriving DecidableEq, Repr

/-- The result of a call that returns a string and an error. -/
structure ExecResult where
  client : BIRDClient
  out : List Byte
  err : Option GoError
  deriving DecidableEq, Repr

/-- Go `(*BIRDClient).exec`: write the command, scan one token, return its
text. -/
def BIRDClient.exec (b : BIRDClient) (cmd : List Byte) : ExecResult :=
  let w := b.conn.Write cmd
  match w.2 with
  | some err => { client := { b with conn := w.1 }, out := [], err := some err }
  | none =>
    let r := b.scanner.Scan w.1
    let b1 : BIRDClient := { b with conn := r.conn, scanner := r.scanner }
    if !r.ok then
      { client := b1, out := [], err := some (GoError.errorf (lit "reading response from bird failed")) }
    else
      match b1.scanner.Err with
      | some err => { client := b1, out := [], err := some err }
      | none => { client := b1, out := b1.scanner.Text, err := none }

/-- Lines 43 to 48 of `DisableProtocol`: the classification of the reply. -/
def classifyDisable (protocol out : List Byte) : Option GoError :=
  if strings.Contains out (protocol ++ lit ": already disabled") then none
  else if strings.Contains out (protocol ++ lit ": disabled") then none
  else some (GoError.errorf (lit "failed to disable " ++ protocol ++ lit ": " ++ out))

/-- Lines 57 to 62 of `EnableProtocol`: the classification of the reply. -/
def classifyEnable (protocol out : List Byte) : Option GoError :=
  if strings.Contains out (protocol ++ lit ": already enabled") then none
  else if strings.Contains out (protocol ++ lit ": enabled") then none
  else some (GoError.errorf (lit "failed to enable " ++ protocol ++ lit ": " ++ out))

/-- Go `(*BIRDClient).DisableProtocol`: the client afterwards and the error. -/
def BIRDClient.DisableProtocol (b : BIRDClient) (protocol : List Byte) :
    BIRDClient × Option GoError :=
  let r := b.exec (lit "disable " ++ protocol ++ lit "\n")
  match r.err with
  | some err => (r.client, some err)
  | none => (r.client, classifyDisable protocol r.out)

/-- Go `(*BIRDClient).EnableProtocol`: the client afterwards and the error. -/
def BIRDClient.EnableProtocol (b : BIRDClient) (protocol : List Byte) :
    BIRDClient × Option GoError :=
  let r := b.exec (lit "enable " ++ protocol ++ lit "\n")
  match r.err with
  | some err => (r.client, some err)
  | none => (r.client, classifyEnable protocol r.out)

/-- The operating system as `New` sees it: the outcome of
`net.Dial("unix", path)` for each path. -/
structure Env where
  dial : List Byte → Except GoError net.Conn

/-- Go `newConn`: dial the socket and read the banner once into a buffer of
4096 bytes, discarding it.  On a failed read the connection is closed and
dropped. -/
def newConn (env : Env) (path : List Byte) : Except GoError net.Conn :=
  match env.dial path with
  | .error err => .error err
  | .ok c =>
    let rd := c.Read 4096
    match rd.err with
    | some err => .error err
    | none => .ok rd.conn

/-- Go `New`: the pair of the client pointer (`none` is `nil`) and the error. -/
def New (env : Env) (socket : List Byte) : Option BIRDClient × Option GoError :=
  match newConn env socket with
  | .error err => (none, some (GoError.wrapf (lit "failed to connect to BIRD: ") err))
  | .ok conn => (some { socket := socket, conn := conn, scanner := bufio.NewScanner }, none)

/-- The response bytes the client has not consumed yet: those its scanner has
buffered, then those still to come on the connection. -/
def BIRDClient.pending (b : BIRDClient) : List Byte := b.scanner.data ++ b.conn.rxBytes

/-- A session between calls whose scanner has recorded no error. -/
def BIRDClient.Healthy (b : BIRDClient) : Prop := b.scanner.WF ∧ b.scanner.err = none

instance (b : BIRDClient) : Decidable b.Healthy :=
  inferInstanceAs (Decidable (b.scanner.WF ∧ b.scanner.err = none))

/-- A session between calls, whatever the calls returned: its scanner is in a
state that `Scan` leaves behind.  Every session that `New` returns is valid
and `exec` keeps a session valid (`New_Valid`, `exec_Valid`). -/
def BIRDClient.Valid (b : BIRDClient) : Prop := b.scanner.Valid

instance (b : BIRDClient) : Decidable b.Valid :=
  inferInstanceAs (Decidable b.scanner.Valid)

/-- The one situation in which a response stream that ends without a newline
still gives the command `cmd` a reply: the scanner has recorded no earlier
error, the write of `cmd` succeeds, some bytes are pending, fewer than
`maxTokenSize`, and the stream ends in a clean `io.EOF`. -/
def BIRDClient.unterminatedReply (b : BIRDClient) (cmd : List Byte) : Prop :=
  b.scanner.err = none ∧ (b.conn.Write cmd).2 = none ∧ b.pending ≠ [] ∧
    b.pending.length < bufio.maxTokenSize ∧ b.conn.rxEnd = GoError.eof

instance (b : BIRDClient) (cmd : List Byte) : Decidable (b.unterminatedReply cmd) :=
  inferInstanceAs (Decidable (b.scanner.err = none ∧ (b.conn.Write cmd).2 = none ∧
    b.pending ≠ [] ∧ b.pending.length < bufio.maxTokenSize ∧ b.conn.rxEnd = GoError.eof))

/-- One call of a public operation, with the protocol name. -/
inductive Call where
  | enable (protocol : List Byte) : Call
  | disable (protocol : List Byte) : Call
  deriving DecidableEq, Repr

/-- Make one call on a session. -/
def BIRDClient.call (b : BIRDClient) : Call → BIRDClient × Option GoError
  | Call.enable protocol => b.EnableProtocol protocol
  | Call.disable protocol => b.DisableProtocol protocol

/-- Make calls one after another on a session: the session afterwards and the
error of each call, in order. -/
def BIRDClient.run (b : BIRDClient) : List Call → BIRDClient × List (Option GoError)
  | [] => (b, [])
  | k :: ks =>
    let r := b.call k
    let rs := BIRDClient.run r.1 ks
    (rs.1, r.2 :: rs.2)

/-- The classification of a reply text by the operation of a call. -/
def Call.classify : Call → List Byte → Option GoError
  | Call.enable protocol, out => classifyEnable protocol out
  | Call.disable protocol, out => classifyDisable protocol out

/-- The command line a call writes. -/
def Call.command : Call → List Byte
  | Call.enable protocol => lit "enable " ++ protocol ++ lit "\n"
  | Call.disable protocol => lit "disable " ++ protocol ++ lit "\n"

/-- A connection for the examples: the daemon delivers the segments `rx` and
then closes the connection; every write succeeds. -/
def exampleConn (rx : List (List Byte)) : net.Conn :=
  { rx := rx, rxEnd := GoError.eof, txOutcomes := [], writes := [] }

/-- A fresh session for the examples, over `exampleConn rx`. -/
def exampleClient (rx : List (List Byte)) : BIRDClient :=
  { socket := lit "/run/bird.ctl", conn := exampleConn rx, scanner := bufio.NewScanner }

/-- A session for the examples whose next write fails with a broken pipe. -/
def brokenClient : BIRDClient :=
  { socket := lit "/run/bird.ctl"
    conn := { rx := [lit "eth0: enabled\n"], rxEnd := GoError.eof,
              txOutcomes := [some (GoError.netErr (lit "write: broken pipe"))], writes := [] }
    scanner := bufio.NewScanner }

/-- An environment for the examples: the socket `/run/bird.ctl` accepts the
connection and sends a banner, the socket `/run/mute.ctl` accepts and closes at
once, and no other path exists. -/
def exampleEnv : Env :=
  { dial := fun path =>
      if path = lit "/run/bird.ctl" then .ok (exampleConn [lit "0001 BIRD 2.0.8 ready.\n"])
      else if path = lit "/run/mute.ctl" then .ok (exampleConn [])
      else .error (GoError.netErr (lit "dial unix: no such file or directory")) }

/-- A session for the examples whose connection is reset after the
unterminated bytes `eth0: enabled`. -/
def resetClient : BIRDClient :=
  { socket := lit "/run/bird.ctl"
    conn := { rx := [lit "eth0: enabled"], rxEnd := GoError.netErr (lit "read: connection reset by peer"),
              txOutcomes := [], writes := [] }
    scanner := bufio.NewScanner }

/-- A reply line for the examples that is longer than a scanner token may be:
65536 bytes `x`, then `eth0: enabled`. -/
def longLine : List Byte := List.replicate 65536 120 ++ lit "eth0: enabled"

/-! ## Lemmas on the library functions -/

namespace strings

theorem Contains_iff (s substr : List Byte) : Contains s substr = true ↔ substr <:+: s := by
  induction s with
  | nil =>
    cases substr <;> simp [Contains]
  | cons c s ih =>
    rw [Contains, Bool.or_eq_true, ih, List.isPrefixOf_iff_prefix, List.infix_cons_iff]

end strings

namespace net

theorem recv_flatten (rx : List (List Byte)) (e : GoError) (n : Nat) :
    (recv rx e n).2.1 ++ (recv rx e n).1.flatten = rx.flatten := by
  induction rx with
  | nil => simp [recv]
  | cons seg rest ih =>
    cases seg with
    | nil => simpa [recv] using ih
    | cons x seg =>
      by_cases h : (x :: seg).length ≤ n
      · rw [recv, if_pos h]; simp
      · rw [recv, if_neg h]
        simp only [List.flatten_cons]
        rw [← List.append_assoc, List.take_append_drop]

theorem recv_length_le (rx : List (List Byte)) (e : GoError) (n : Nat) :
    (recv rx e n).2.1.length ≤ n := by
  induction rx with
  | nil => simp [recv]
  | cons seg rest ih =>
    cases seg with
    | nil => simpa [recv] using ih
    | cons x seg =>
      by_cases h : (x :: seg).length ≤ n
      · rw [recv, if_pos h]; exact h
      · rw [recv, if_neg h]
        simp only [List.length_take]
        exact Nat.min_le_left _ _

theorem recv_drained (rx : List (List Byte)) (e : GoError) (n : Nat) (h : rx.flatten = []) :
    recv rx e n = ([], [], some e) := by
  induction rx with
  | nil => simp [recv]
  | cons seg rest ih =>
    cases seg with
    | nil => rw [recv]; exact ih (by simpa using h)
    | cons x seg => simp at h

theorem recv_pending (rx : List (List Byte)) (e : GoError) (n : Nat) (h : rx.flatten ≠ []) :
    (recv rx e n).2.2 = none ∧ (0 < n → (recv rx e n).2.1 ≠ []) := by
  induction rx with
  | nil => simp at h
  | cons seg rest ih =>
    cases seg with
    | nil => rw [recv]; exact ih (by simpa using h)
    | cons x seg =>
      by_cases hn : (x :: seg).length ≤ n
      · rw [recv, if_pos hn]; simp
      · rw [recv, if_neg hn]
        refine ⟨rfl, fun h0 => ?_⟩
        obtain ⟨m, rfl⟩ : ∃ m, n = m + 1 := ⟨n - 1, by omega⟩
        simp

theorem Read_rxBytes (c : Conn) (n : Nat) :
    (c.Read n).data ++ (c.Read n).conn.rxBytes = c.rxBytes :=
  recv_flatten c.rx c.rxEnd n

theorem Read_length_le (c : Conn) (n : Nat) : (c.Read n).data.length ≤ n :=
  recv_length_le c.rx c.rxEnd n

theorem Read_drained (c : Conn) (n : Nat) (h : c.rxBytes = []) :
    (c.Read n).data = [] ∧ (c.Read n).err = some c.rxEnd ∧ (c.Read n).conn.rxBytes = [] := by
  have := recv_drained c.rx c.rxEnd n h
  simp [Conn.Read, Conn.rxBytes, this]

theorem Read_pending (c : Conn) (n : Nat) (h : c.rxBytes ≠ []) :
    (c.Read n).err = none ∧ (0 < n → (c.Read n).data ≠ []) :=
  recv_pending c.rx c.rxEnd n h

theorem Read_frame (c : Conn) (n : Nat) :
    (c.Read n).conn.rxEnd = c.rxEnd ∧ (c.Read n).conn.txOutcomes = c.txOutcomes ∧
      (c.Read n).conn.writes = c.writes :=
  ⟨rfl, rfl, rfl⟩

theorem Read_err (c : Conn) (n : Nat) (e : GoError) (h : (c.Read n).err = some e) :
    e = c.rxEnd ∧ c.rxBytes = [] := by
  by_cases hp : c.rxBytes = []
  · have := (Read_drained c n hp).2.1
    rw [h] at this
    exact ⟨Option.some.inj this, hp⟩
  · have := (Read_pending c n hp).1
    rw [h] at this
    cases this

end net

namespace bufio

theorem IndexByte_eq_none (data : List Byte) (c : Byte) (h : c ∉ data) :
    IndexByte data c = none := by
  induction data with
  | nil => rfl
  | cons x xs ih =>
    have hx : x ≠ c := fun hxc => h (by simp [hxc])
    have hxs : c ∉ xs := fun hc => h (List.mem_cons_of_mem _ hc)
    simp [IndexByte, hx, ih hxs]

theorem IndexByte_append (l rest : List Byte) (c : Byte) (h : c ∉ l) :
    IndexByte (l ++ c :: rest) c = some l.length := by
  induction l with
  | nil => simp [IndexByte]
  | cons x xs ih =>
    have hx : x ≠ c := fun hxc => h (by simp [hxc])
    have hxs : c ∉ xs := fun hc => h (List.mem_cons_of_mem _ hc)
    simp [IndexByte, hx, ih hxs]

theorem ScanLines_line (l rest : List Byte) (atEOF : Bool) (h : NL ∉ l) :
    ScanLines (l ++ NL :: rest) atEOF = (l.length + 1, some (dropCR l)) := by
  simp [ScanLines, IndexByte_append l rest NL h]

theorem ScanLines_more (data : List Byte) (h : NL ∉ data) : ScanLines data false = (0, none) := by
  simp [ScanLines, IndexByte_eq_none data NL h]

theorem ScanLines_final (data : List Byte) (h : NL ∉ data) (hne : data ≠ []) :
    ScanLines data true = (data.length, some (dropCR data)) := by
  simp [ScanLines, IndexByte_eq_none data NL h, hne]

theorem ScanLines_nil (atEOF : Bool) : ScanLines [] atEOF = (0, none) := by
  cases atEOF <;> simp [ScanLines, IndexByte]

theorem IndexByte_le (data : List Byte) (c : Byte) (i : Nat) (h : IndexByte data c = some i) :
    i < data.length := by
  induction data generalizing i with
  | nil => simp [IndexByte] at h
  | cons x xs ih =>
    by_cases hx : x = c
    · simp [IndexByte, hx] at h
      subst h
      simp
    · simp only [IndexByte, if_neg hx, Option.map_eq_some'] at h
      obtain ⟨j, hj, rfl⟩ := h
      have := ih j hj
      simp only [List.length_cons]
      omega

/-- The split function never advances past the data it was given, so the
advance-too-far check of `Scan` never fires. -/
theorem ScanLines_advance_le (data : List Byte) (atEOF : Bool) :
    (ScanLines data atEOF).1 ≤ data.length := by
  unfold ScanLines
  split
  · exact Nat.zero_le _
  · split
    · next i hi => exact IndexByte_le data NL i hi
    · split
      · exact Nat.le_refl _
      · exact Nat.zero_le _

theorem Frame_refl (c : net.Conn) : Frame c c := ⟨rfl, rfl, rfl⟩

theorem Frame_trans {a b c : net.Conn} (h1 : Frame a b) (h2 : Frame b c) : Frame a c :=
  ⟨h2.1.trans h1.1, h2.2.1.trans h1.2.1, h2.2.2.trans h1.2.2⟩

theorem NewScanner_WF : NewScanner.WF := by
  simp [Scanner.WF, NewScanner, Scanner.endIdx]

theorem scanStep_line (s : Scanner) (c : net.Conn) (l rest : List Byte)
    (hd : s.data = l ++ NL :: rest) (hl : NL ∉ l) :
    scanStep s c = Step.done
      { ok := true
        scanner := { s with start := s.start + (l.length + 1), data := rest, token := dropCR l }
        conn := c } := by
  simp [scanStep, hd, ScanLines_line l rest _ hl]

theorem scanStep_more (s : Scanner) (c : net.Conn) (he : s.err = none) (hd : NL ∉ s.data) :
    ∃ tok, scanStep s c = fill { s with token := tok } c := by
  obtain ⟨bl, st, d, tk, er⟩ := s
  simp only at he hd
  subst he
  by_cases hne : d = []
  · subst hne
    refine ⟨tk, ?_⟩
    simp [scanStep, ScanLines_nil]
  · refine ⟨[], ?_⟩
    have hpos : 0 < d.length := List.length_pos.mpr hne
    simp [scanStep, ScanLines_more d hd, hpos]

theorem scanStep_final (s : Scanner) (c : net.Conn) (e : GoError) (he : s.err = some e)
    (hd : NL ∉ s.data) (hne : s.data ≠ []) :
    scanStep s c = Step.done
      { ok := true
        scanner := { s with start := s.start + s.data.length, data := [],
                            token := dropCR s.data }
        conn := c } := by
  simp [scanStep, he, ScanLines_final s.data hd hne]

theorem scanStep_end (s : Scanner) (c : net.Conn) (e : GoError) (he : s.err = some e)
    (hd : s.data = []) :
    scanStep s c = Step.done
      { ok := false, scanner := { s with start := 0, data := [], token := [] }, conn := c } := by
  simp [scanStep, he, hd, ScanLines_nil]

theorem shift_fields (s : Scanner) :
    s.shift.data = s.data ∧ s.shift.err = s.err ∧ s.shift.token = s.token ∧
      s.shift.bufLen = s.bufLen := by
  unfold Scanner.shift
  split <;> simp

theorem shift_WF (s : Scanner) (h : s.WF) : s.shift.WF := by
  unfold Scanner.shift
  split
  · simp only [Scanner.WF, Scanner.endIdx] at h ⊢
    omega
  · exact h

theorem shift_full (s : Scanner) (h : s.shift.endIdx = s.shift.bufLen) :
    s.shift.start = 0 := by
  unfold Scanner.shift at h ⊢
  split
  · rfl
  · next hc =>
    rw [if_neg hc] at h
    by_contra h0
    exact hc ⟨Nat.pos_of_ne_zero h0, Or.inl h⟩

theorem lt_newSize (n : Nat) (h : n < maxTokenSize) : n < newSize n := by
  unfold newSize startBufSize
  unfold maxTokenSize at h ⊢
  split <;> omega

theorem newSize_le (n : Nat) : newSize n ≤ maxTokenSize := Nat.min_le_right _ _

/-- What one read does to a scanner with room in its buffer and no error
recorded: the bytes still to come are only moved from the connection into the
buffer, and the error of a drained connection is recorded. -/
theorem readMore_spec (s : Scanner) (c : net.Conn) (hroom : s.endIdx < s.bufLen)
    (hmax : s.bufLen ≤ maxTokenSize) (he : s.err = none) :
    (s.readMore c).1.WF ∧ Frame c (s.readMore c).2 ∧
      (s.readMore c).1.token = s.token ∧
      (s.readMore c).1.data ++ (s.readMore c).2.rxBytes = s.data ++ c.rxBytes ∧
      ((c.rxBytes ≠ [] ∧ (s.readMore c).1.err = none ∧
          (s.readMore c).2.rxBytes.length < c.rxBytes.length) ∨
        (c.rxBytes = [] ∧ (s.readMore c).1.err = some c.rxEnd ∧
          (s.readMore c).2.rxBytes = [] ∧ (s.readMore c).1.data = s.data)) := by
  obtain ⟨bl, st, d, tk, er⟩ := s
  simp only [Scanner.endIdx] at hroom hmax he
  subst he
  have hlen := net.Read_length_le c (bl - (st + d.length))
  have hbytes := net.Read_rxBytes c (bl - (st + d.length))
  by_cases hp : c.rxBytes = []
  · obtain ⟨h1, h2, h3⟩ := net.Read_drained c (bl - (st + d.length)) hp
    simp only [Scanner.readMore, Scanner.endIdx, h2, h1, Scanner.setErr]
    refine ⟨?_, ⟨rfl, rfl, rfl⟩, ?_, ?_, Or.inr ⟨hp, ?_, h3, ?_⟩⟩
    · simp only [Scanner.WF, Scanner.endIdx, true_or, if_true, List.append_nil]
      omega
    · simp
    · simp [h3, hp]
    · simp
    · simp
  · obtain ⟨h1, h2⟩ := net.Read_pending c (bl - (st + d.length)) hp
    have h2 := h2 (by omega)
    have hpos : 0 < (c.Read (bl - (st + d.length))).data.length := List.length_pos.mpr h2
    have hne : (c.Read (bl - (st + d.length))).data.length ≠ 0 := by omega
    have hlt : (c.Read (bl - (st + d.length))).conn.rxBytes.length < c.rxBytes.length := by
      rw [← hbytes, List.length_append]
      omega
    simp only [Scanner.readMore, Scanner.endIdx, h1, if_neg hne]
    refine ⟨?_, ⟨rfl, rfl, rfl⟩, ?_, ?_, Or.inl ⟨hp, ?_, hlt⟩⟩
    · simp only [Scanner.WF, Scanner.endIdx, List.length_append]
      omega
    · simp
    · simp only [List.append_assoc, hbytes]
    · simp

theorem fill_read (s : Scanner) (c : net.Conn) (hwf : s.WF) (he : s.err = none)
    (hlen : s.data.length < maxTokenSize) :
    ∃ s1 c1, fill s c = Step.more s1 c1 ∧ s1.WF ∧ Frame c c1 ∧
      s1.data ++ c1.rxBytes = s.data ++ c.rxBytes ∧
      ((c.rxBytes ≠ [] ∧ s1.err = none ∧ c1.rxBytes.length < c.rxBytes.length) ∨
        (c.rxBytes = [] ∧ s1.err = some c.rxEnd ∧ c1.rxBytes = [] ∧ s1.data = s.data)) := by
  obtain ⟨hd, hse, -, hb⟩ := shift_fields s
  have hswf := shift_WF s hwf
  unfold fill
  simp only
  by_cases hfull : s.shift.endIdx = s.shift.bufLen
  · have hst := shift_full s hfull
    have hbl : s.shift.bufLen < maxTokenSize := by
      simp only [Scanner.endIdx, hst, hd, Nat.zero_add] at hfull
      omega
    rw [if_pos hfull, if_neg (by omega)]
    have hroom : s.shift.grow.endIdx < s.shift.grow.bufLen := by
      have := lt_newSize _ hbl
      simp only [Scanner.grow, Scanner.endIdx, Nat.zero_add]
      simp only [Scanner.endIdx, hst, Nat.zero_add] at hfull
      omega
    obtain ⟨h1, h2, -, h4, h5⟩ :=
      readMore_spec s.shift.grow c hroom (newSize_le _) (by simpa [Scanner.grow] using hse.trans he)
    refine ⟨_, _, rfl, h1, h2, ?_, ?_⟩
    · rw [h4]; simp [Scanner.grow, hd]
    · simpa [Scanner.grow, hd] using h5
  · rw [if_neg hfull]
    have hroom : s.shift.endIdx < s.shift.bufLen := lt_of_le_of_ne hswf.1 hfull
    obtain ⟨h1, h2, -, h4, h5⟩ := readMore_spec s.shift c hroom hswf.2 (hse.trans he)
    refine ⟨_, _, rfl, h1, h2, ?_, ?_⟩
    · rw [h4, hd]
    · simpa [hd] using h5

theorem fill_tooLong (s : Scanner) (c : net.Conn) (hwf : s.WF) (he : s.err = none)
    (hlen : maxTokenSize ≤ s.data.length) :
    fill s c = Step.done
      { ok := false, scanner := { s with err := some GoError.tooLong }, conn := c } := by
  obtain ⟨bl, st, d, tk, er⟩ := s
  simp only [Scanner.WF, Scanner.endIdx] at hwf he hlen
  subst he
  have hst : st = 0 := by omega
  subst hst
  have hbl : bl = d.length := by omega
  have hm : maxTokenSize ≤ bl := by omega
  simp [fill, Scanner.shift, Scanner.endIdx, hbl.symm, hm, Scanner.setErr]

theorem readMore_progress (s : Scanner) (c : net.Conn) (he : s.err = none) :
    Frame c (s.readMore c).2 ∧
      (((s.readMore c).1.err ≠ none ∧ (s.readMore c).2.rxBytes.length ≤ c.rxBytes.length) ∨
        (s.readMore c).2.rxBytes.length < c.rxBytes.length) := by
  refine ⟨⟨rfl, rfl, rfl⟩, ?_⟩
  have hbytes := net.Read_rxBytes c (s.bufLen - s.endIdx)
  have hle : (c.Read (s.bufLen - s.endIdx)).conn.rxBytes.length ≤ c.rxBytes.length := by
    rw [← hbytes, List.length_append]
    omega
  unfold Scanner.readMore
  simp only
  cases hrd : (c.Read (s.bufLen - s.endIdx)).err with
  | some e =>
    left
    simp [Scanner.setErr, he, hle]
  | none =>
    by_cases h0 : (c.Read (s.bufLen - s.endIdx)).data.length = 0
    · left
      simp [h0, Scanner.setErr, he, hle]
    · right
      rw [← hbytes, List.length_append]
      omega

theorem fill_progress (s : Scanner) (c : net.Conn) (he : s.err = none) (s1 : Scanner)
    (c1 : net.Conn) (h : fill s c = Step.more s1 c1) :
    Frame c c1 ∧
      ((s1.err ≠ none ∧ c1.rxBytes.length ≤ c.rxBytes.length) ∨
        c1.rxBytes.length < c.rxBytes.length) := by
  have hse := (shift_fields s).2.1
  unfold fill at h
  simp only at h
  split at h
  · split at h
    · cases h
    · injection h with h1 h2
      subst h1 h2
      exact readMore_progress _ c (by simpa [Scanner.grow] using hse.trans he)
  · injection h with h1 h2
    subst h1 h2
    exact readMore_progress _ c (hse.trans he)

theorem scanStep_err (s : Scanner) (c : net.Conn) (e : GoError) (he : s.err = some e) :
    ∃ r, scanStep s c = Step.done r := by
  unfold scanStep
  simp only
  split
  · exact ⟨_, rfl⟩
  · rw [if_pos (by simp [he])]
    exact ⟨_, rfl⟩

theorem ScanLines_none (data : List Byte) (atEOF : Bool) (h : (ScanLines data atEOF).2 = none) :
    (ScanLines data atEOF).1 = 0 := by
  unfold ScanLines at h ⊢
  by_cases h1 : (atEOF && data.isEmpty) = true
  · rw [if_pos h1]
  · rw [if_neg h1] at h ⊢
    cases hi : IndexByte data NL with
    | some i => simp [hi] at h
    | none =>
      simp only [hi] at h ⊢
      cases atEOF with
      | true => simp at h
      | false => rfl

theorem scanStep_cases (s : Scanner) (c : net.Conn) (he : s.err = none) :
    (∃ r, scanStep s c = Step.done r) ∨ ∃ tok, scanStep s c = fill { s with token := tok } c := by
  obtain ⟨bl, st, d, tk, er⟩ := s
  simp only at he
  subst he
  by_cases hpos : 0 < d.length
  · cases htok : (ScanLines d false).2 with
    | some tok =>
      left
      simp [scanStep, hpos, htok]
    | none =>
      right
      have hadv := ScanLines_none d false htok
      refine ⟨[], ?_⟩
      simp [scanStep, hpos, htok, hadv]
  · right
    refine ⟨tk, ?_⟩
    simp [scanStep, hpos]

theorem scanStep_progress (s : Scanner) (c : net.Conn) (s1 : Scanner) (c1 : net.Conn)
    (h : scanStep s c = Step.more s1 c1) :
    s.err = none ∧ Frame c c1 ∧
      ((s1.err ≠ none ∧ c1.rxBytes.length ≤ c.rxBytes.length) ∨
        c1.rxBytes.length < c.rxBytes.length) := by
  cases hs : s.err with
  | some e =>
    obtain ⟨r, hr⟩ := scanStep_err s c e hs
    rw [hr] at h
    cases h
  | none =>
    refine ⟨rfl, ?_⟩
    rcases scanStep_cases s c hs with ⟨r, hr⟩ | ⟨tok, hr⟩
    · rw [hr] at h
      cases h
    · rw [hr] at h
      exact fill_progress _ c (by simpa using hs) s1 c1 h

/-- The loop of `Scan` returns: with at least as many units of fuel as bytes
still to come plus two (plus one when an error is already recorded) it does
not run out of fuel, whatever state the scanner is in. -/
theorem scanLoop_total (fuel : Nat) :
    ∀ (s : Scanner) (c : net.Conn),
      c.rxBytes.length + (if s.err = none then 2 else 1) ≤ fuel →
        ∃ r, scanLoop fuel s c = some r := by
  induction fuel with
  | zero =>
    intro s c h
    split at h <;> omega
  | succ fuel ih =>
    intro s c h
    rw [scanLoop]
    cases hstep : scanStep s c with
    | done r => exact ⟨r, rfl⟩
    | more s1 c1 =>
      obtain ⟨he, -, hprog⟩ := scanStep_progress s c s1 c1 hstep
      rw [if_pos he] at h
      apply ih
      rcases hprog with ⟨h1, h2⟩ | h2
      · rw [if_neg h1]; omega
      · split <;> omega

/-- Go `(*Scanner).Scan` is the loop run to its return. -/
theorem Scan_eq (s : Scanner) (c : net.Conn) :
    ∃ r, scanLoop (c.rxBytes.length + 2) s c = some r ∧ s.Scan c = r := by
  obtain ⟨r, hr⟩ := scanLoop_total (c.rxBytes.length + 2) s c (by split <;> omega)
  exact ⟨r, hr, by simp [Scanner.Scan, hr]⟩

/-- The loop of `Scan` on a stream that holds a full line `l` of fewer than
`maxTokenSize` bytes: it returns `true`, the token is `l` without one trailing
carriage return, and exactly the line and its newline are consumed, however the
stream is cut into segments. -/
theorem scanLoop_line (l rest : List Byte) (hl : NL ∉ l) (hlen : l.length < maxTokenSize)
    (fuel : Nat) :
    ∀ (s : Scanner) (c : net.Conn), s.WF → s.err = none →
      s.data ++ c.rxBytes = l ++ NL :: rest → c.rxBytes.length + 1 ≤ fuel →
        ∃ r, scanLoop fuel s c = some r ∧ r.ok = true ∧ r.scanner.token = dropCR l ∧
          r.scanner.err = none ∧ r.scanner.WF ∧ r.scanner.data ++ r.conn.rxBytes = rest ∧
          Frame c r.conn := by
  induction fuel with
  | zero => intro s c _ _ _ h; omega
  | succ fuel ih =>
    intro s c hwf he hpend hfuel
    rw [scanLoop]
    rcases List.append_eq_append_iff.mp hpend with ⟨a, hla, hrx⟩ | ⟨a, hda, hrest⟩
    · -- the newline has not been read yet
      have hnl : NL ∉ s.data := fun h => hl (by rw [hla]; exact List.mem_append_left _ h)
      have hdl : s.data.length < maxTokenSize := by
        have : s.data.length ≤ l.length := by rw [hla, List.length_append]; omega
        omega
      obtain ⟨tok, hstep⟩ := scanStep_more s c he hnl
      obtain ⟨s1, c1, hfill, hwf1, hfr, hpend1, hcase⟩ :=
        fill_read { s with token := tok } c hwf he hdl
      rw [hstep, hfill]
      have hne : c.rxBytes ≠ [] := by rw [hrx]; simp
      rcases hcase with ⟨-, he1, hlt⟩ | ⟨hnil, -⟩
      · obtain ⟨r, hr, h1, h2, h3, h4, h5, h6⟩ :=
          ih s1 c1 hwf1 he1 (hpend1.trans hpend) (by omega)
        exact ⟨r, hr, h1, h2, h3, h4, h5, Frame_trans hfr h6⟩
      · exact absurd hnil hne
    · cases a with
      | nil =>
        -- the buffer holds exactly the line, the newline comes next
        simp only [List.append_nil] at hda
        simp only [List.nil_append] at hrest
        have hnl : NL ∉ s.data := by rw [hda]; exact hl
        have hdl : s.data.length < maxTokenSize := by rw [hda]; exact hlen
        obtain ⟨tok, hstep⟩ := scanStep_more s c he hnl
        obtain ⟨s1, c1, hfill, hwf1, hfr, hpend1, hcase⟩ :=
          fill_read { s with token := tok } c hwf he hdl
        rw [hstep, hfill]
        have hne : c.rxBytes ≠ [] := by rw [← hrest]; simp
        rcases hcase with ⟨-, he1, hlt⟩ | ⟨hnil, -⟩
        · obtain ⟨r, hr, h1, h2, h3, h4, h5, h6⟩ :=
            ih s1 c1 hwf1 he1 (hpend1.trans hpend) (by omega)
          exact ⟨r, hr, h1, h2, h3, h4, h5, Frame_trans hfr h6⟩
        · exact absurd hnil hne
      | cons x a =>
        -- the buffer holds the line and its newline
        simp only [List.cons_append, List.cons.injEq] at hrest
        obtain ⟨rfl, hrest⟩ := hrest
        rw [scanStep_line s c l a hda hl]
        refine ⟨_, rfl, rfl, rfl, he, ?_, hrest.symm, Frame_refl c⟩
        simp only [Scanner.WF, Scanner.endIdx] at hwf ⊢
        rw [hda] at hwf
        simp only [List.length_append, List.length_cons] at hwf
        omega

/-- The loop of `Scan` on a stream that ends without a newline after fewer
than `maxTokenSize` bytes: the connection is drained and its final condition
recorded; with no byte at all the result is `false`, otherwise `true` with the
unterminated bytes, less one trailing carriage return, as the token. -/
theorem scanLoop_unterminated (fuel : Nat) :
    ∀ (s : Scanner) (c : net.Conn), s.WF → s.err = none →
      NL ∉ s.data ++ c.rxBytes → (s.data ++ c.rxBytes).length < maxTokenSize →
      c.rxBytes.length + 2 ≤ fuel →
        ∃ r, scanLoop fuel s c = some r ∧ r.scanner.err = some c.rxEnd ∧
          r.scanner.data = [] ∧ r.conn.rxBytes = [] ∧ r.scanner.WF ∧ Frame c r.conn ∧
          (s.data ++ c.rxBytes = [] → r.ok = false) ∧
          (s.data ++ c.rxBytes ≠ [] →
            r.ok = true ∧ r.scanner.token = dropCR (s.data ++ c.rxBytes)) := by
  induction fuel with
  | zero => intro s c _ _ _ _ h; omega
  | succ fuel ih =>
    intro s c hwf he hnl hlen hfuel
    rw [scanLoop]
    have hnld : NL ∉ s.data := fun h => hnl (List.mem_append_left _ h)
    have hdl : s.data.length < maxTokenSize := by
      rw [List.length_append] at hlen; omega
    obtain ⟨tok, hstep⟩ := scanStep_more s c he hnld
    obtain ⟨s1, c1, hfill, hwf1, hfr, hpend1, hcase⟩ :=
      fill_read { s with token := tok } c hwf he hdl
    rw [hstep, hfill]
    simp only at hpend1
    rcases hcase with ⟨-, he1, hlt⟩ | ⟨hnil, he1, hnil1, hd1⟩
    · obtain ⟨r, hr, h1, h2, h3, h4, h5, h6, h7⟩ :=
        ih s1 c1 hwf1 he1 (by rw [hpend1]; exact hnl) (by rw [hpend1]; exact hlen) (by omega)
      refine ⟨r, hr, h1.trans (by rw [hfr.1]), h2, h3, h4, Frame_trans hfr h5, ?_, ?_⟩
      · rw [← hpend1]; exact h6
      · rw [← hpend1]; exact h7
    · -- the connection is drained: the next iteration returns
      simp only at hd1
      obtain ⟨f, rfl⟩ : ∃ f, fuel = f + 1 := ⟨fuel - 1, by omega⟩
      show ∃ r, scanLoop (f + 1) s1 c1 = some r ∧ _
      rw [scanLoop]
      by_cases hd : s1.data = []
      · rw [scanStep_end s1 c1 _ he1 hd]
        refine ⟨_, rfl, he1, rfl, hnil1, ?_, hfr, fun _ => rfl, fun hne => ?_⟩
        · simp only [Scanner.WF, Scanner.endIdx] at hwf1 ⊢
          simp only [List.length_nil]
          omega
        · exact absurd (by rw [← hd1, hd, hnil]; rfl) hne
      · rw [scanStep_final s1 c1 _ he1 (by rw [hd1]; exact hnld) hd]
        refine ⟨_, rfl, he1, rfl, hnil1, ?_, hfr, fun h => ?_, fun _ => ⟨rfl, ?_⟩⟩
        · simp only [Scanner.WF, Scanner.endIdx] at hwf1 ⊢
          simp only [List.length_nil]
          omega
        · exact absurd (by rw [hd1]; exact (List.append_eq_nil.mp h).1) hd
        · simp only [hd1, hnil, List.append_nil]

/-- The loop of `Scan` on a stream whose first `maxTokenSize` bytes hold no
newline: the buffer fills up to `maxTokenSize` and the result is `false` with
`ErrTooLong` recorded. -/
theorem scanLoop_tooLong (fuel : Nat) :
    ∀ (s : Scanner) (c : net.Conn), s.WF → s.err = none →
      maxTokenSize ≤ (s.data ++ c.rxBytes).length →
      NL ∉ (s.data ++ c.rxBytes).take maxTokenSize → c.rxBytes.length + 1 ≤ fuel →
        ∃ r, scanLoop fuel s c = some r ∧ r.ok = false ∧
          r.scanner.err = some GoError.tooLong ∧ Frame c r.conn := by
  induction fuel with
  | zero => intro s c _ _ _ _ h; omega
  | succ fuel ih =>
    intro s c hwf he hlen hnl hfuel
    rw [scanLoop]
    have hdle : s.data.length ≤ maxTokenSize := by
      simp only [Scanner.WF, Scanner.endIdx] at hwf; omega
    have hnld : NL ∉ s.data := by
      intro h
      apply hnl
      rw [List.take_append_eq_append_take, List.take_of_length_le hdle]
      exact List.mem_append_left _ h
    obtain ⟨tok, hstep⟩ := scanStep_more s c he hnld
    rw [hstep]
    by_cases hfull : maxTokenSize ≤ s.data.length
    · rw [fill_tooLong { s with token := tok } c hwf he hfull]
      exact ⟨_, rfl, rfl, rfl, Frame_refl c⟩
    · obtain ⟨s1, c1, hfill, hwf1, hfr, hpend1, hcase⟩ :=
        fill_read { s with token := tok } c hwf he (by simpa using hfull)
      rw [hfill]
      simp only at hpend1
      rcases hcase with ⟨-, he1, hlt⟩ | ⟨hnil, -⟩
      · obtain ⟨r, hr, h1, h2, h3⟩ :=
          ih s1 c1 hwf1 he1 (by rw [hpend1]; exact hlen) (by rw [hpend1]; exact hnl) (by omega)
        exact ⟨r, hr, h1, h2, Frame_trans hfr h3⟩
      · rw [hnil, List.append_nil] at hlen
        exact absurd hlen hfull

theorem Scan_line (s : Scanner) (c : net.Conn) (l rest : List Byte) (hwf : s.WF)
    (he : s.err = none) (hpend : s.data ++ c.rxBytes = l ++ NL :: rest) (hl : NL ∉ l)
    (hlen : l.length < maxTokenSize) :
    (s.Scan c).ok = true ∧ (s.Scan c).scanner.token = dropCR l ∧
      (s.Scan c).scanner.err = none ∧ (s.Scan c).scanner.WF ∧
      (s.Scan c).scanner.data ++ (s.Scan c).conn.rxBytes = rest ∧ Frame c (s.Scan c).conn := by
  obtain ⟨r, hr, hs⟩ := Scan_eq s c
  obtain ⟨r1, hr1, h⟩ := scanLoop_line l rest hl hlen (c.rxBytes.length + 2) s c hwf he hpend (by omega)
  rw [hr] at hr1
  cases hr1
  rw [hs]
  exact h

theorem Scan_unterminated (s : Scanner) (c : net.Conn) (hwf : s.WF) (he : s.err = none)
    (hnl : NL ∉ s.data ++ c.rxBytes) (hlen : (s.data ++ c.rxBytes).length < maxTokenSize) :
    (s.Scan c).scanner.err = some c.rxEnd ∧ (s.Scan c).scanner.data = [] ∧
      (s.Scan c).conn.rxBytes = [] ∧ (s.Scan c).scanner.WF ∧ Frame c (s.Scan c).conn ∧
      (s.data ++ c.rxBytes = [] → (s.Scan c).ok = false) ∧
      (s.data ++ c.rxBytes ≠ [] →
        (s.Scan c).ok = true ∧ (s.Scan c).scanner.token = dropCR (s.data ++ c.rxBytes)) := by
  obtain ⟨r, hr, hs⟩ := Scan_eq s c
  obtain ⟨r1, hr1, h⟩ := scanLoop_unterminated (c.rxBytes.length + 2) s c hwf he hnl hlen (Nat.le_refl _)
  rw [hr] at hr1
  cases hr1
  rw [hs]
  exact h

theorem Scan_tooLong (s : Scanner) (c : net.Conn) (hwf : s.WF) (he : s.err = none)
    (hlen : maxTokenSize ≤ (s.data ++ c.rxBytes).length)
    (hnl : NL ∉ (s.data ++ c.rxBytes).take maxTokenSize) :
    (s.Scan c).ok = false ∧ (s.Scan c).scanner.err = some GoError.tooLong ∧
      Frame c (s.Scan c).conn := by
  obtain ⟨r, hr, hs⟩ := Scan_eq s c
  obtain ⟨r1, hr1, h⟩ := scanLoop_tooLong (c.rxBytes.length + 2) s c hwf he hlen hnl (by omega)
  rw [hr] at hr1
  cases hr1
  rw [hs]
  exact h

theorem fill_done_conn (s : Scanner) (c : net.Conn) (r : ScanResult)
    (h : fill s c = Step.done r) : r.conn = c := by
  unfold fill at h
  simp only at h
  by_cases h1 : s.shift.endIdx = s.shift.bufLen
  · rw [if_pos h1] at h
    by_cases h2 : maxTokenSize ≤ s.shift.bufLen
    · rw [if_pos h2] at h
      cases h
      rfl
    · rw [if_neg h2] at h
      cases h
  · rw [if_neg h1] at h
    cases h

theorem scanStep_done_conn (s : Scanner) (c : net.Conn) (r : ScanResult)
    (h : scanStep s c = Step.done r) : r.conn = c := by
  unfold scanStep at h
  simp only at h
  by_cases h1 : ((decide (0 < s.data.length) || s.err.isSome) &&
      (ScanLines s.data s.err.isSome).2.isSome) = true
  · rw [if_pos h1] at h
    cases h
    rfl
  · rw [if_neg h1] at h
    generalize (if (decide (0 < s.data.length) || s.err.isSome) = true then
      ({ s with start := s.start + (ScanLines s.data s.err.isSome).1,
                data := s.data.drop (ScanLines s.data s.err.isSome).1, token := [] } : Scanner)
      else s) = s1 at h
    by_cases h2 : s1.err.isSome = true
    · rw [if_pos h2] at h
      cases h
      rfl
    · rw [if_neg h2] at h
      exact fill_done_conn s1 c r h

/-- The loop of `Scan` leaves the writes and the final condition of the
connection alone, in every state. -/
theorem scanLoop_frame (fuel : Nat) :
    ∀ (s : Scanner) (c : net.Conn) (r : ScanResult), scanLoop fuel s c = some r →
      Frame c r.conn := by
  induction fuel with
  | zero => intro s c r h; simp [scanLoop] at h
  | succ fuel ih =>
    intro s c r h
    rw [scanLoop] at h
    cases hstep : scanStep s c with
    | done r1 =>
      rw [hstep] at h
      simp only [Option.some.injEq] at h
      subst h
      rw [scanStep_done_conn s c r1 hstep]
      exact Frame_refl c
    | more s1 c1 =>
      rw [hstep] at h
      exact Frame_trans (scanStep_progress s c s1 c1 hstep).2.1 (ih s1 c1 r h)

theorem Scan_frame (s : Scanner) (c : net.Conn) : Frame c (s.Scan c).conn := by
  obtain ⟨r, hr, hs⟩ := Scan_eq s c
  rw [hs]
  exact scanLoop_frame _ s c r hr

theorem IndexByte_none_not_mem (data : List Byte) (c : Byte) (h : IndexByte data c = none) :
    c ∉ data := by
  induction data with
  | nil => simp
  | cons x xs ih =>
    by_cases hx : x = c
    · simp [IndexByte, hx] at h
    · simp only [IndexByte, if_neg hx, Option.map_eq_none'] at h
      intro hm
      rcases List.mem_cons.mp hm with hm | hm
      · exact hx hm.symm
      · exact ih h hm

/-- A list that holds `c` splits at the first `c`. -/
theorem split_first (c : Byte) (data : List Byte) (h : c ∈ data) :
    ∃ l rest, data = l ++ c :: rest ∧ c ∉ l := by
  induction data with
  | nil => simp at h
  | cons x xs ih =>
    by_cases hx : x = c
    · exact ⟨[], xs, by simp [hx], by simp⟩
    · rcases List.mem_cons.mp h with hm | hm
      · exact absurd hm.symm hx
      · obtain ⟨l, rest, hl, hn⟩ := ih hm
        refine ⟨x :: l, rest, by simp [hl], ?_⟩
        intro hm1
        rcases List.mem_cons.mp hm1 with h1 | h1
        · exact hx h1.symm
        · exact hn h1

/-- The first iteration that returns decides `Scan`. -/
theorem Scan_of_done (s : Scanner) (c : net.Conn) (r : ScanResult)
    (h : scanStep s c = Step.done r) : s.Scan c = r := by
  simp [Scanner.Scan, scanLoop, h]

/-- With an error already recorded `Scan` returns at once and keeps the
error. -/
theorem Scan_sticky (s : Scanner) (c : net.Conn) (e : GoError) (he : s.err = some e) :
    (s.Scan c).scanner.err = some e := by
  by_cases hnl : NL ∈ s.data
  · obtain ⟨l, rest, hd, hl⟩ := split_first NL s.data hnl
    rw [Scan_of_done s c _ (scanStep_line s c l rest hd hl)]
    exact he
  · by_cases hd : s.data = []
    · rw [Scan_of_done s c _ (scanStep_end s c e he hd)]
      exact he
    · rw [Scan_of_done s c _ (scanStep_final s c e he hnl hd)]
      exact he

/-- With the end of the stream recorded and nothing buffered `Scan` returns
`false`. -/
theorem Scan_ended (s : Scanner) (c : net.Conn) (e : GoError) (he : s.err = some e)
    (hd : s.data = []) : (s.Scan c).ok = false := by
  rw [Scan_of_done s c _ (scanStep_end s c e he hd)]

theorem readMore_drained (s : Scanner) (c : net.Conn) (he : s.err = none)
    (hc : c.rxBytes = []) :
    (s.readMore c).1.err = some c.rxEnd ∧ (s.readMore c).1.data = s.data ∧
      (s.readMore c).2.rxBytes = [] := by
  obtain ⟨h1, h2, h3⟩ := net.Read_drained c (s.bufLen - s.endIdx) hc
  simp [Scanner.readMore, h1, h2, h3, Scanner.setErr, he]

/-- With nothing buffered and nothing to come `Scan` returns `false`, in
every state of the scanner. -/
theorem Scan_empty (s : Scanner) (c : net.Conn) (hd : s.data = []) (hc : c.rxBytes = []) :
    (s.Scan c).ok = false := by
  cases he : s.err with
  | some e => exact Scan_ended s c e he hd
  | none =>
    obtain ⟨tok, hstep⟩ := scanStep_more s c he (by rw [hd]; simp)
    have hse := (shift_fields { s with token := tok }).2.1
    have hsd := (shift_fields { s with token := tok }).1
    simp only at hse hsd
    by_cases h1 : ({ s with token := tok } : Scanner).shift.endIdx =
        ({ s with token := tok } : Scanner).shift.bufLen
    · by_cases h2 : maxTokenSize ≤ ({ s with token := tok } : Scanner).shift.bufLen
      · rw [Scan_of_done s c _ (by rw [hstep, fill]; simp only; rw [if_pos h1, if_pos h2])]
      · obtain ⟨r1, r2, r3⟩ := readMore_drained ({ s with token := tok } : Scanner).shift.grow c
          (by simpa [Scanner.grow] using hse.trans he) hc
        have hfill : fill { s with token := tok } c =
            Step.more (({ s with token := tok } : Scanner).shift.grow.readMore c).1
              (({ s with token := tok } : Scanner).shift.grow.readMore c).2 := by
          rw [fill]; simp only; rw [if_pos h1, if_neg h2]
        have hd1 : (({ s with token := tok } : Scanner).shift.grow.readMore c).1.data = [] := by
          rw [r2]; simp only [Scanner.grow]; rw [hsd, hd]
        simp only [Scanner.Scan, scanLoop, hstep, hfill, scanStep_end _ _ _ r1 hd1]
        rfl
    · obtain ⟨r1, r2, r3⟩ := readMore_drained ({ s with token := tok } : Scanner).shift c
        (hse.trans he) hc
      have hfill : fill { s with token := tok } c =
          Step.more (({ s with token := tok } : Scanner).shift.readMore c).1
            (({ s with token := tok } : Scanner).shift.readMore c).2 := by
        rw [fill]; simp only; rw [if_neg h1]
      have hd1 : (({ s with token := tok } : Scanner).shift.readMore c).1.data = [] := by
        rw [r2, hsd, hd]
      simp only [Scanner.Scan, scanLoop, hstep, hfill, scanStep_end _ _ _ r1 hd1]
      rfl

theorem NewScanner_Valid : NewScanner.Valid :=
  ⟨NewScanner_WF, fun _ => rfl⟩

/-- An iteration that returns leaves the scanner in a state between calls. -/
theorem scanStep_done_Valid (s : Scanner) (c : net.Conn) (r : ScanResult) (hwf : s.WF)
    (hj : s.err = some GoError.eof → NL ∉ s.data) (h : scanStep s c = Step.done r) :
    r.scanner.Valid := by
  have hwf1 := hwf
  simp only [Scanner.WF, Scanner.endIdx] at hwf1
  by_cases hnl : NL ∈ s.data
  · obtain ⟨l, rest, hd, hl⟩ := split_first NL s.data hnl
    rw [scanStep_line s c l rest hd hl] at h
    injection h with h
    subst h
    refine ⟨?_, fun he => absurd hnl (hj he)⟩
    rw [hd] at hwf1
    simp only [List.length_append, List.length_cons] at hwf1
    simp only [Scanner.WF, Scanner.endIdx]
    omega
  · cases he : s.err with
    | some e =>
      by_cases hd : s.data = []
      · rw [scanStep_end s c e he hd] at h
        injection h with h
        subst h
        refine ⟨?_, fun _ => rfl⟩
        simp only [Scanner.WF, Scanner.endIdx, List.length_nil]
        omega
      · rw [scanStep_final s c e he hnl hd] at h
        injection h with h
        subst h
        refine ⟨?_, fun _ => rfl⟩
        simp only [Scanner.WF, Scanner.endIdx, List.length_nil]
        omega
    | none =>
      obtain ⟨tok, hstep⟩ := scanStep_more s c he hnl
      rw [hstep] at h
      by_cases hlen : s.data.length < maxTokenSize
      · obtain ⟨s1, c1, hfill, -⟩ := fill_read { s with token := tok } c hwf he hlen
        rw [hfill] at h
        cases h
      · rw [fill_tooLong { s with token := tok } c hwf he (by simpa using hlen)] at h
        injection h with h
        subst h
        exact ⟨hwf, fun h0 => by simp at h0⟩

/-- An iteration that goes round again keeps the scanner well formed, and
records the end of the stream only with no newline in the buffer. -/
theorem scanStep_more_inv (s : Scanner) (c : net.Conn) (s1 : Scanner) (c1 : net.Conn)
    (hwf : s.WF) (h : scanStep s c = Step.more s1 c1) :
    s1.WF ∧ (s1.err = some GoError.eof → NL ∉ s1.data) := by
  have he := (scanStep_progress s c s1 c1 h).1
  by_cases hnl : NL ∈ s.data
  · obtain ⟨l, rest, hd, hl⟩ := split_first NL s.data hnl
    rw [scanStep_line s c l rest hd hl] at h
    cases h
  · obtain ⟨tok, hstep⟩ := scanStep_more s c he hnl
    rw [hstep] at h
    by_cases hlen : s.data.length < maxTokenSize
    · obtain ⟨s2, c2, hfill, hwf2, -, -, hcase⟩ :=
        fill_read { s with token := tok } c hwf he hlen
      rw [hfill] at h
      injection h with h1 h2
      subst h1 h2
      refine ⟨hwf2, fun h0 => ?_⟩
      rcases hcase with ⟨-, hn, -⟩ | ⟨-, -, -, hd⟩
      · rw [hn] at h0
        cases h0
      · rw [hd]
        exact hnl
    · rw [fill_tooLong { s with token := tok } c hwf he (by simpa using hlen)] at h
      cases h

theorem scanLoop_Valid (fuel : Nat) :
    ∀ (s : Scanner) (c : net.Conn) (r : ScanResult), s.WF →
      (s.err = some GoError.eof → NL ∉ s.data) → scanLoop fuel s c = some r →
        r.scanner.Valid := by
  induction fuel with
  | zero => intro s c r _ _ h; simp [scanLoop] at h
  | succ fuel ih =>
    intro s c r hwf hj h
    rw [scanLoop] at h
    cases hstep : scanStep s c with
    | done r1 =>
      rw [hstep] at h
      simp only [Option.some.injEq] at h
      subst h
      exact scanStep_done_Valid s c r1 hwf hj hstep
    | more s1 c1 =>
      rw [hstep] at h
      obtain ⟨h1, h2⟩ := scanStep_more_inv s c s1 c1 hwf hstep
      exact ih s1 c1 r h1 h2 h

/-- `Scan` keeps a scanner in a state between calls, whatever it returns. -/
theorem Scan_Valid (s : Scanner) (c : net.Conn) (h : s.Valid) : (s.Scan c).scanner.Valid := by
  obtain ⟨r, hr, hs⟩ := Scan_eq s c
  rw [hs]
  exact scanLoop_Valid _ s c r h.1 (fun he => by rw [h.2 he]; simp) hr

end bufio

/-! ## Lemmas on the client -/

namespace net

theorem Write_fields (c : Conn) (p : List Byte) :
    (c.Write p).1.rx = c.rx ∧ (c.Write p).1.rxEnd = c.rxEnd ∧
      (c.Write p).1.writes = c.writes ++ [p] ∧
      (c.Write p).1.txOutcomes = c.txOutcomes.tail := by
  unfold Conn.Write
  cases c.txOutcomes <;> simp

theorem Write_rxBytes (c : Conn) (p : List Byte) : (c.Write p).1.rxBytes = c.rxBytes := by
  unfold Conn.rxBytes
  rw [(Write_fields c p).1]

theorem Write_ok_of_all (c : Conn) (p : List Byte) (h : ∀ o ∈ c.txOutcomes, o = none) :
    (c.Write p).2 = none := by
  unfold Conn.Write
  cases hc : c.txOutcomes with
  | nil => rfl
  | cons o rest => exact h o (by rw [hc]; exact List.mem_cons_self _ _)

end net

theorem exec_write_fail (b : BIRDClient) (cmd : List Byte) (e : GoError)
    (hw : (b.conn.Write cmd).2 = some e) :
    b.exec cmd = { client := { b with conn := (b.conn.Write cmd).1 }, out := [], err := some e } := by
  simp only [BIRDClient.exec, hw]

theorem exec_writes (b : BIRDClient) (cmd : List Byte) :
    (b.exec cmd).client.conn.writes = b.conn.writes ++ [cmd] := by
  have hwr := (net.Write_fields b.conn cmd).2.2.1
  cases hw : (b.conn.Write cmd).2 with
  | some e => rw [exec_write_fail b cmd e hw]; exact hwr
  | none =>
    have hfr := bufio.Scan_frame b.scanner (b.conn.Write cmd).1
    simp only [BIRDClient.exec, hw]
    split
    · exact hfr.2.2.trans hwr
    · split
      · exact hfr.2.2.trans hwr
      · exact hfr.2.2.trans hwr

/-- On a healthy session whose pending bytes start with a full line `l` of
fewer than `maxTokenSize` bytes, a command whose write succeeds gets `l`
without one trailing carriage return; the line and its newline are consumed
and the session stays healthy. -/
theorem exec_line (b : BIRDClient) (cmd l rest : List Byte) (hh : b.Healthy)
    (hw : (b.conn.Write cmd).2 = none) (hp : b.pending = l ++ NL :: rest) (hl : NL ∉ l)
    (hlen : l.length < bufio.maxTokenSize) :
    (b.exec cmd).err = none ∧ (b.exec cmd).out = bufio.dropCR l ∧
      (b.exec cmd).client.Healthy ∧ (b.exec cmd).client.pending = rest ∧
      (b.exec cmd).client.conn.txOutcomes = b.conn.txOutcomes.tail := by
  have hrx := net.Write_rxBytes b.conn cmd
  obtain ⟨h1, h2, h3, h4, h5, h6⟩ :=
    bufio.Scan_line b.scanner (b.conn.Write cmd).1 l rest hh.1 hh.2
      (by rw [hrx]; exact hp) hl hlen
  have htx := h6.2.1.trans (net.Write_fields b.conn cmd).2.2.2
  simp [BIRDClient.exec, hw, h1, bufio.Scanner.Err, h3, bufio.Scanner.Text, h2,
    BIRDClient.Healthy, h4, BIRDClient.pending, h5, htx]

theorem dropCR_append_CR (l : List Byte) : bufio.dropCR (l ++ [CR]) = l := by
  simp [bufio.dropCR]

theorem dropCR_of_no_CR (l : List Byte) (h : ¬ ∃ l0, l = l0 ++ [CR]) : bufio.dropCR l = l := by
  unfold bufio.dropCR
  split
  · next hlast =>
    exfalso
    apply h
    rcases List.eq_nil_or_concat l with hn | ⟨l0, x, hx⟩
    · rw [hn] at hlast
      simp at hlast
    · rw [hx] at hlast
      have hxc : x = CR := by simpa using hlast
      exact ⟨l0, by rw [hx, hxc, List.concat_eq_append]⟩
  · rfl

/-- On a healthy session whose next `maxTokenSize` pending bytes hold no
newline, a command whose write succeeds fails: the scanner gives up with
`ErrTooLong` and `exec` reports that reading the response failed. -/
theorem exec_tooLong (b : BIRDClient) (cmd : List Byte) (hh : b.Healthy)
    (hw : (b.conn.Write cmd).2 = none) (hlen : bufio.maxTokenSize ≤ b.pending.length)
    (hnl : NL ∉ b.pending.take bufio.maxTokenSize) :
    (b.exec cmd).err = some (GoError.errorf (lit "reading response from bird failed")) := by
  have hrx := net.Write_rxBytes b.conn cmd
  obtain ⟨h1, -, -⟩ :=
    bufio.Scan_tooLong b.scanner (b.conn.Write cmd).1 hh.1 hh.2
      (by rw [hrx]; exact hlen) (by rw [hrx]; exact hnl)
  simp [BIRDClient.exec, hw, h1]

/-- On a healthy session whose pending bytes end without a newline after fewer
than `maxTokenSize` bytes, a command whose write succeeds fails when nothing
is pending and when the stream ends in an error other than `io.EOF`, and gets
the unterminated bytes, less one trailing carriage return, when the stream
ends in `io.EOF`. -/
theorem exec_unterminated (b : BIRDClient) (cmd : List Byte) (hh : b.Healthy)
    (hw : (b.conn.Write cmd).2 = none) (hnl : NL ∉ b.pending)
    (hlen : b.pending.length < bufio.maxTokenSize) :
    (b.pending = [] →
      (b.exec cmd).err = some (GoError.errorf (lit "reading response from bird failed"))) ∧
    (b.pending ≠ [] → b.conn.rxEnd = GoError.eof →
      (b.exec cmd).err = none ∧ (b.exec cmd).out = bufio.dropCR b.pending) ∧
    (b.pending ≠ [] → b.conn.rxEnd ≠ GoError.eof → (b.exec cmd).err = some b.conn.rxEnd) := by
  have hrx := net.Write_rxBytes b.conn cmd
  have hre := (net.Write_fields b.conn cmd).2.1
  obtain ⟨h1, -, -, -, -, h6, h7⟩ :=
    bufio.Scan_unterminated b.scanner (b.conn.Write cmd).1 hh.1 hh.2
      (by rw [hrx]; exact hnl) (by rw [hrx]; exact hlen)
  rw [hrx] at h6 h7
  rw [hre] at h1
  refine ⟨fun hp => ?_, fun hp he => ?_, fun hp he => ?_⟩
  · have hok := h6 hp
    simp [BIRDClient.exec, hw, hok]
  · obtain ⟨hok, htok⟩ := h7 hp
    simp [BIRDClient.exec, hw, hok, bufio.Scanner.Err, h1, he, bufio.Scanner.Text, htok,
      BIRDClient.pending]
  · obtain ⟨hok, htok⟩ := h7 hp
    simp [BIRDClient.exec, hw, hok, bufio.Scanner.Err, h1, he]

/-- One call on a healthy session whose pending bytes start with a full line
`l` of fewer than `maxTokenSize` bytes: the call is classified against `l`
without one trailing carriage return, and consumes the line and its newline. -/
theorem call_line (b : BIRDClient) (k : Call) (l rest : List Byte) (hh : b.Healthy)
    (hw : (b.conn.Write k.command).2 = none) (hp : b.pending = l ++ NL :: rest) (hl : NL ∉ l)
    (hlen : l.length < bufio.maxTokenSize) :
    (b.call k).2 = k.classify (bufio.dropCR l) ∧ (b.call k).1.Healthy ∧
      (b.call k).1.pending = rest ∧
      (b.call k).1.conn.txOutcomes = b.conn.txOutcomes.tail := by
  obtain ⟨h1, h2, h3, h4, h5⟩ := exec_line b k.command l rest hh hw hp hl hlen
  cases k with
  | enable n =>
    simp only [Call.command] at h1 h2 h3 h4 h5
    simp only [BIRDClient.call, BIRDClient.EnableProtocol, h1, h2, Call.classify]
    exact ⟨trivial, h3, h4, h5⟩
  | disable n =>
    simp only [Call.command] at h1 h2 h3 h4 h5
    simp only [BIRDClient.call, BIRDClient.DisableProtocol, h1, h2, Call.classify]
    exact ⟨trivial, h3, h4, h5⟩

/-- One call on a fresh session whose reply starts with `maxTokenSize` bytes
without a newline fails, whatever follows them. -/
theorem call_long_line (pad tail : List Byte) (k : Call)
    (hpad : pad.length = bufio.maxTokenSize) (hnl : NL ∉ pad) :
    ((exampleClient [pad ++ tail]).run [k]).2 =
      [some (GoError.errorf (lit "reading response from bird failed"))] := by
  have hp : (exampleClient [pad ++ tail]).pending = pad ++ tail := by
    simp [BIRDClient.pending, exampleClient, exampleConn, bufio.NewScanner, net.Conn.rxBytes]
  have hex := exec_tooLong (exampleClient [pad ++ tail]) k.command ⟨bufio.NewScanner_WF, rfl⟩ rfl
    (by rw [hp, List.length_append]; omega)
    (by rw [hp, List.take_left' hpad]; exact hnl)
  cases k with
  | enable n =>
    simp only [Call.command] at hex
    simp only [BIRDClient.run, BIRDClient.call, BIRDClient.EnableProtocol, hex]
  | disable n =>
    simp only [Call.command] at hex
    simp only [BIRDClient.run, BIRDClient.call, BIRDClient.DisableProtocol, hex]

/-- A session returned by `New` is healthy. -/
theorem New_healthy (env : Env) (path : List Byte) (b : BIRDClient)
    (h : (New env path).1 = some b) : b.Healthy := by
  unfold New at h
  split at h
  · cases h
  · simp only [Option.some.injEq] at h
    subst h
    exact ⟨bufio.NewScanner_WF, rfl⟩

/-- A session returned by `New` is valid. -/
theorem New_Valid (env : Env) (path : List Byte) (b : BIRDClient)
    (h : (New env path).1 = some b) : b.Valid :=
  (New_healthy env path b h).1 |> fun hwf => ⟨hwf, fun he => by
    rw [(New_healthy env path b h).2] at he
    cases he⟩

/-- A valid session stays valid through `exec`, whatever `exec` returns. -/
theorem exec_Valid (b : BIRDClient) (cmd : List Byte) (hv : b.Valid) :
    (b.exec cmd).client.Valid := by
  cases hw : (b.conn.Write cmd).2 with
  | some e =>
    rw [exec_write_fail b cmd e hw]
    exact hv
  | none =>
    have hs := bufio.Scan_Valid b.scanner (b.conn.Write cmd).1 hv
    simp only [BIRDClient.exec, hw]
    split
    · exact hs
    · split
      · exact hs
      · exact hs

/-- A valid session stays valid through a call of either operation. -/
theorem call_Valid (b : BIRDClient) (k : Call) (hv : b.Valid) : (b.call k).1.Valid := by
  have h := exec_Valid b k.command hv
  cases k with
  | enable n =>
    simp only [Call.command] at h
    simp only [BIRDClient.call, BIRDClient.EnableProtocol]
    split <;> exact h
  | disable n =>
    simp only [Call.command] at h
    simp only [BIRDClient.call, BIRDClient.DisableProtocol]
    split <;> exact h

/-- With no byte pending `exec` fails, in every state of the session: with the
error of the write, or else with the report that reading the response
failed. -/
theorem exec_empty (b : BIRDClient) (cmd : List Byte) (hp : b.pending = []) :
    (b.exec cmd).err ≠ none ∧
      ((b.conn.Write cmd).2 = none →
        (b.exec cmd).err = some (GoError.errorf (lit "reading response from bird failed"))) := by
  obtain ⟨hd, hc⟩ := List.append_eq_nil.mp hp
  cases hw : (b.conn.Write cmd).2 with
  | some e =>
    rw [exec_write_fail b cmd e hw]
    exact ⟨by simp, fun h => by cases h⟩
  | none =>
    have hok := bufio.Scan_empty b.scanner (b.conn.Write cmd).1 hd
      (by rw [net.Write_rxBytes]; exact hc)
    have : (b.exec cmd).err = some (GoError.errorf (lit "reading response from bird failed")) := by
      simp [BIRDClient.exec, hw, hok]
    exact ⟨by rw [this]; simp, fun _ => this⟩

/-- On a valid session whose scanner has an error recorded `exec` fails. -/
theorem exec_sticky (b : BIRDClient) (cmd : List Byte) (e : GoError) (hv : b.Valid)
    (he : b.scanner.err = some e) : (b.exec cmd).err ≠ none := by
  cases hw : (b.conn.Write cmd).2 with
  | some e1 =>
    rw [exec_write_fail b cmd e1 hw]
    simp
  | none =>
    by_cases heof : e = GoError.eof
    · have hok := bufio.Scan_ended b.scanner (b.conn.Write cmd).1 e he (hv.2 (by rw [he, heof]))
      simp [BIRDClient.exec, hw, hok]
    · have hst := bufio.Scan_sticky b.scanner (b.conn.Write cmd).1 e he
      cases hok : (b.scanner.Scan (b.conn.Write cmd).1).ok with
      | false => simp [BIRDClient.exec, hw, hok]
      | true => simp [BIRDClient.exec, hw, hok, bufio.Scanner.Err, hst, heof]

/-- On a valid session whose pending bytes hold no newline, `exec` returns
without error in exactly one situation, `unterminatedReply`, and then returns
the pending bytes less one trailing carriage return. -/
theorem exec_verdict (b : BIRDClient) (cmd : List Byte) (hv : b.Valid) (hnl : NL ∉ b.pending) :
    ((b.exec cmd).err = none ↔ b.unterminatedReply cmd) ∧
      ((b.exec cmd).err = none → (b.exec cmd).out = bufio.dropCR b.pending) := by
  have hfwd : (b.exec cmd).err = none → b.unterminatedReply cmd := by
    intro hnone
    cases hs : b.scanner.err with
    | some e => exact absurd hnone (exec_sticky b cmd e hv hs)
    | none =>
      have hh : b.Healthy := ⟨hv.1, hs⟩
      cases hw : (b.conn.Write cmd).2 with
      | some e1 =>
        rw [exec_write_fail b cmd e1 hw] at hnone
        cases hnone
      | none =>
        by_cases hp : b.pending = []
        · exact absurd hnone (exec_empty b cmd hp).1
        · by_cases hlen : b.pending.length < bufio.maxTokenSize
          · by_cases he : b.conn.rxEnd = GoError.eof
            · exact ⟨hs, hw, hp, hlen, he⟩
            · have := (exec_unterminated b cmd hh hw hnl hlen).2.2 hp he
              rw [hnone] at this
              cases this
          · have := exec_tooLong b cmd hh hw (by omega)
              (fun hm => hnl (List.mem_of_mem_take hm))
            rw [hnone] at this
            cases this
  have hbwd : b.unterminatedReply cmd →
      (b.exec cmd).err = none ∧ (b.exec cmd).out = bufio.dropCR b.pending := by
    rintro ⟨hs, hw, hp, hlen, he⟩
    exact (exec_unterminated b cmd ⟨hv.1, hs⟩ hw hnl hlen).2.1 hp he
  exact ⟨⟨hfwd, fun h => (hbwd h).1⟩, fun h => (hbwd (hfwd h)).2⟩

/-! ## The properties of the package -/

/-- C1: for every protocol name `n` and every reply `out` that the command
exchange returns without error, if `out` contains `n ++ ": enabled"` or
`n ++ ": already enabled"` then `EnableProtocol(n)` returns no error. -/
theorem EnableProtocol_success (b : BIRDClient) (n out : List Byte)
    (herr : (b.exec (lit "enable " ++ n ++ lit "\n")).err = none)
    (hout : (b.exec (lit "enable " ++ n ++ lit "\n")).out = out)
    (h : (n ++ lit ": enabled") <:+: out ∨ (n ++ lit ": already enabled") <:+: out) :
    (b.EnableProtocol n).2 = none := by
  simp only [BIRDClient.EnableProtocol, herr, hout, classifyEnable]
  rcases h with h | h
  · have := (strings.Contains_iff out _).mpr h
    simp [this]
  · have := (strings.Contains_iff out _).mpr h
    simp [this]

theorem EnableProtocol_success_witness :
    ((exampleClient [lit "eth0: enabled\n"]).EnableProtocol (lit "eth0")).2 = none :=
  EnableProtocol_success (exampleClient [lit "eth0: enabled\n"]) (lit "eth0")
    (lit "eth0: enabled") (by decide) (by decide) (Or.inl ⟨[], [], by decide⟩)

/-- C2: for every protocol name `n` and every reply `out` that the command
exchange returns without error, if `out` contains `n ++ ": disabled"` or
`n ++ ": already disabled"` then `DisableProtocol(n)` returns no error. -/
theorem DisableProtocol_success (b : BIRDClient) (n out : List Byte)
    (herr : (b.exec (lit "disable " ++ n ++ lit "\n")).err = none)
    (hout : (b.exec (lit "disable " ++ n ++ lit "\n")).out = out)
    (h : (n ++ lit ": disabled") <:+: out ∨ (n ++ lit ": already disabled") <:+: out) :
    (b.DisableProtocol n).2 = none := by
  simp only [BIRDClient.DisableProtocol, herr, hout, classifyDisable]
  rcases h with h | h
  · have := (strings.Contains_iff out _).mpr h
    simp [this]
  · have := (strings.Contains_iff out _).mpr h
    simp [this]

theorem DisableProtocol_success_witness :
    ((exampleClient [lit "eth0: already disabled\n"]).DisableProtocol (lit "eth0")).2 = none :=
  DisableProtocol_success (exampleClient [lit "eth0: already disabled\n"]) (lit "eth0")
    (lit "eth0: already disabled") (by decide) (by decide) (Or.inr ⟨[], [], by decide⟩)

/-- C3: for every protocol name `n` and every reply `out` returned by the
command exchange that contains neither success substring of the operation,
`EnableProtocol(n)`, respectively `DisableProtocol(n)`, returns an error whose
text contains both `n` and the whole of `out`. -/
theorem unexpected_reply_error (b : BIRDClient) (n out : List Byte) :
    ((b.exec (lit "enable " ++ n ++ lit "\n")).err = none →
      (b.exec (lit "enable " ++ n ++ lit "\n")).out = out →
      ¬ (n ++ lit ": enabled") <:+: out → ¬ (n ++ lit ": already enabled") <:+: out →
        ∃ e, (b.EnableProtocol n).2 = some e ∧ n <:+: e.Error ∧ out <:+: e.Error) ∧
    ((b.exec (lit "disable " ++ n ++ lit "\n")).err = none →
      (b.exec (lit "disable " ++ n ++ lit "\n")).out = out →
      ¬ (n ++ lit ": disabled") <:+: out → ¬ (n ++ lit ": already disabled") <:+: out →
        ∃ e, (b.DisableProtocol n).2 = some e ∧ n <:+: e.Error ∧ out <:+: e.Error) := by
  constructor
  · intro herr hout h1 h2
    have c1 : strings.Contains out (n ++ lit ": enabled") = false := by
      rw [← Bool.not_eq_true, strings.Contains_iff]; exact h1
    have c2 : strings.Contains out (n ++ lit ": already enabled") = false := by
      rw [← Bool.not_eq_true, strings.Contains_iff]; exact h2
    refine ⟨GoError.errorf (lit "failed to enable " ++ n ++ lit ": " ++ out), ?_, ?_, ?_⟩
    · simp only [BIRDClient.EnableProtocol, herr, hout, classifyEnable, c1, c2]
      simp
    · exact ⟨lit "failed to enable ", lit ": " ++ out, by simp [GoError.Error]⟩
    · exact ⟨lit "failed to enable " ++ n ++ lit ": ", [], by simp [GoError.Error]⟩
  · intro herr hout h1 h2
    have c1 : strings.Contains out (n ++ lit ": disabled") = false := by
      rw [← Bool.not_eq_true, strings.Contains_iff]; exact h1
    have c2 : strings.Contains out (n ++ lit ": already disabled") = false := by
      rw [← Bool.not_eq_true, strings.Contains_iff]; exact h2
    refine ⟨GoError.errorf (lit "failed to disable " ++ n ++ lit ": " ++ out), ?_, ?_, ?_⟩
    · simp only [BIRDClient.DisableProtocol, herr, hout, classifyDisable, c1, c2]
      simp
    · exact ⟨lit "failed to disable ", lit ": " ++ out, by simp [GoError.Error]⟩
    · exact ⟨lit "failed to disable " ++ n ++ lit ": ", [], by simp [GoError.Error]⟩

theorem unexpected_reply_error_witness :
    ∃ e, ((exampleClient [lit "eth0: unknown protocol\n"]).EnableProtocol (lit "eth0")).2 = some e ∧
      lit "eth0" <:+: e.Error ∧ lit "eth0: unknown protocol" <:+: e.Error :=
  (unexpected_reply_error (exampleClient [lit "eth0: unknown protocol\n"]) (lit "eth0")
    (lit "eth0: unknown protocol")).1 (by decide) (by decide)
    (by rw [← strings.Contains_iff]; decide) (by rw [← strings.Contains_iff]; decide)

/-- C4: when the command exchange fails, `EnableProtocol` and
`DisableProtocol` return exactly its error; and when the write fails, `exec`
returns the error of the write and leaves the scanner and the pending response
stream as they were. -/
theorem exec_error_returned (b : BIRDClient) (n : List Byte) (e : GoError) :
    ((b.exec (lit "enable " ++ n ++ lit "\n")).err = some e →
      b.EnableProtocol n = ((b.exec (lit "enable " ++ n ++ lit "\n")).client, some e)) ∧
    ((b.exec (lit "disable " ++ n ++ lit "\n")).err = some e →
      b.DisableProtocol n = ((b.exec (lit "disable " ++ n ++ lit "\n")).client, some e)) ∧
    (∀ cmd, (b.conn.Write cmd).2 = some e →
      (b.exec cmd).err = some e ∧ (b.exec cmd).out = [] ∧
        (b.exec cmd).client.scanner = b.scanner ∧
        (b.exec cmd).client.conn.rx = b.conn.rx ∧
        (b.exec cmd).client.conn.rxEnd = b.conn.rxEnd) := by
  refine ⟨fun h => ?_, fun h => ?_, fun cmd hw => ?_⟩
  · simp only [BIRDClient.EnableProtocol, h]
  · simp only [BIRDClient.DisableProtocol, h]
  · rw [exec_write_fail b cmd e hw]
    exact ⟨rfl, rfl, rfl, (net.Write_fields b.conn cmd).1, (net.Write_fields b.conn cmd).2.1⟩

theorem exec_error_returned_witness :
    (brokenClient.EnableProtocol (lit "eth0")).2 =
        some (GoError.netErr (lit "write: broken pipe")) ∧
      (brokenClient.exec (lit "enable eth0\n")).client.scanner = brokenClient.scanner ∧
      (brokenClient.exec (lit "enable eth0\n")).client.conn.rx = brokenClient.conn.rx :=
  ⟨congrArg Prod.snd
      ((exec_error_returned brokenClient (lit "eth0")
        (GoError.netErr (lit "write: broken pipe"))).1 (by decide)),
    ((exec_error_returned brokenClient (lit "eth0")
        (GoError.netErr (lit "write: broken pipe"))).2.2 (lit "enable eth0\n") (by decide)).2.2.1,
    ((exec_error_returned brokenClient (lit "eth0")
        (GoError.netErr (lit "write: broken pipe"))).2.2 (lit "enable eth0\n") (by decide)).2.2.2.1⟩

/-- C5: `EnableProtocol(n)` makes one write, of the bytes `"enable "`, `n`
unchanged and a newline, and `DisableProtocol(n)` one write of `"disable "`,
`n` and a newline, whatever the outcome of the call. -/
theorem command_written (b : BIRDClient) (n : List Byte) :
    (b.EnableProtocol n).1.conn.writes = b.conn.writes ++ [lit "enable " ++ n ++ [NL]] ∧
      (b.DisableProtocol n).1.conn.writes = b.conn.writes ++ [lit "disable " ++ n ++ [NL]] := by
  constructor
  · have h := exec_writes b (lit "enable " ++ n ++ lit "\n")
    have hc : (b.EnableProtocol n).1 = (b.exec (lit "enable " ++ n ++ lit "\n")).client := by
      unfold BIRDClient.EnableProtocol
      simp only
      split <;> rfl
    rw [hc, h]
    rfl
  · have h := exec_writes b (lit "disable " ++ n ++ lit "\n")
    have hc : (b.DisableProtocol n).1 = (b.exec (lit "disable " ++ n ++ lit "\n")).client := by
      unfold BIRDClient.DisableProtocol
      simp only
      split <;> rfl
    rw [hc, h]
    rfl

/-- C8: `New` returns an error and no client whenever the dial fails or the
banner read of 4096 bytes fails; it returns a client only with no error and
only when both the dial and the banner read succeeded; an error never comes
with a client. -/
theorem New_all_or_nothing (env : Env) (path : List Byte) :
    (((∃ e, env.dial path = .error e) ∨
        (∃ c e, env.dial path = .ok c ∧ (c.Read 4096).err = some e)) →
      (New env path).1 = none ∧ (New env path).2 ≠ none) ∧
    ((New env path).1 ≠ none →
      (New env path).2 = none ∧ ∃ c, env.dial path = .ok c ∧ (c.Read 4096).err = none) ∧
    ((New env path).2 ≠ none → (New env path).1 = none) := by
  cases hd : env.dial path with
  | error e => simp [New, newConn, hd]
  | ok c =>
    cases hr : (c.Read 4096).err with
    | some e => simp [New, newConn, hd, hr]
    | none => simp [New, newConn, hd, hr]

theorem New_all_or_nothing_witness :
    (New exampleEnv (lit "/run/none.ctl")).1 = none ∧
      (New exampleEnv (lit "/run/none.ctl")).2 ≠ none :=
  (New_all_or_nothing exampleEnv (lit "/run/none.ctl")).1
    (Or.inl ⟨GoError.netErr (lit "dial unix: no such file or directory"), rfl⟩)

/-- C10 (amended): on a healthy session whose pending response stream is
`l ++ "\n" ++ rest` with no newline in `l` and `l` shorter than 65536 bytes,
a command whose write succeeds returns success with the text `l` less one
trailing carriage return if `l` ends in one, and `l` itself otherwise; `rest`
is what stays pending. -/
theorem exec_returns_line (b : BIRDClient) (cmd l rest : List Byte) (hh : b.Healthy)
    (hw : (b.conn.Write cmd).2 = none) (hp : b.pending = l ++ NL :: rest) (hl : NL ∉ l)
    (hlen : l.length < bufio.maxTokenSize) :
    (b.exec cmd).err = none ∧ (b.exec cmd).client.pending = rest ∧
      (∀ l0, l = l0 ++ [CR] → (b.exec cmd).out = l0) ∧
      ((¬ ∃ l0, l = l0 ++ [CR]) → (b.exec cmd).out = l) := by
  obtain ⟨h1, h2, -, h4, -⟩ := exec_line b cmd l rest hh hw hp hl hlen
  refine ⟨h1, h4, fun l0 h0 => ?_, fun h0 => ?_⟩
  · rw [h2, h0, dropCR_append_CR]
  · rw [h2, dropCR_of_no_CR l h0]

theorem exec_returns_line_witness :
    ((exampleClient [lit "eth0: ena", lit "bled\r\nBIRD"]).exec (lit "enable eth0\n")).err = none ∧
      ((exampleClient [lit "eth0: ena", lit "bled\r\nBIRD"]).exec
        (lit "enable eth0\n")).client.pending = lit "BIRD" ∧
      ((exampleClient [lit "eth0: ena", lit "bled\r\nBIRD"]).exec (lit "enable eth0\n")).out =
        lit "eth0: enabled" :=
  have h := exec_returns_line (exampleClient [lit "eth0: ena", lit "bled\r\nBIRD"])
    (lit "enable eth0\n") (lit "eth0: enabled\r") (lit "BIRD") (by decide) (by decide)
    (by decide) (by decide) (by decide)
  ⟨h.1, h.2.1, h.2.2.1 (lit "eth0: enabled") (by decide)⟩

/-- C10 as stated fails: the pending stream is the line `"eth0: enabled\r"`
and its newline, the write succeeds, and `exec` returns a text other than the
line, the carriage return being dropped; and when the pending stream is
`longLine` and its newline, `exec` returns an error. -/
theorem exec_returns_line_counterexample :
    ((exampleClient [lit "eth0: enabled\r\n"]).pending = lit "eth0: enabled\r" ++ NL :: [] ∧
      NL ∉ lit "eth0: enabled\r" ∧
      ((exampleClient [lit "eth0: enabled\r\n"]).conn.Write (lit "enable eth0\n")).2 = none ∧
      ((exampleClient [lit "eth0: enabled\r\n"]).exec (lit "enable eth0\n")).err = none ∧
      ((exampleClient [lit "eth0: enabled\r\n"]).exec (lit "enable eth0\n")).out ≠
        lit "eth0: enabled\r") ∧
    ((exampleClient [longLine ++ [NL]]).pending = longLine ++ NL :: [] ∧ NL ∉ longLine ∧
      ((exampleClient [longLine ++ [NL]]).conn.Write (lit "enable eth0\n")).2 = none ∧
      ((exampleClient [longLine ++ [NL]]).exec (lit "enable eth0\n")).err =
        some (GoError.errorf (lit "reading response from bird failed"))) := by
  have hnl : NL ∉ List.replicate 65536 120 := by
    rw [List.mem_replicate]
    decide
  have hp : (exampleClient [longLine ++ [NL]]).pending = longLine ++ NL :: [] := by
    simp [BIRDClient.pending, exampleClient, exampleConn, bufio.NewScanner, net.Conn.rxBytes]
  refine ⟨by decide, hp, ?_, rfl, ?_⟩
  · intro h
    rw [longLine, List.mem_append] at h
    rcases h with h | h
    · exact hnl h
    · exact absurd h (by decide)
  · refine exec_tooLong _ _ ⟨bufio.NewScanner_WF, rfl⟩ rfl ?_ ?_
    · rw [hp, longLine]
      simp only [List.length_append, List.length_replicate]
      unfold bufio.maxTokenSize
      omega
    · rw [hp, longLine, List.append_assoc,
        List.take_left' (by rw [List.length_replicate]; rfl)]
      exact hnl

/-- C6 (amended): when the response stream ends before a newline has been
received for the current command, `exec` fails, and `EnableProtocol` and
`DisableProtocol` fail as well, whatever the partial text contains, with one
exception.  With no byte pending `exec` fails in every state of the session.
On a valid session `exec` returns without error exactly when the scanner has
recorded no earlier error, the write succeeds, and unterminated bytes, at
least one and fewer than 65536, are pending before a clean `io.EOF`
(`unterminatedReply`); it then returns those bytes less one trailing carriage
return, and the two operations classify that text.  In particular `exec`
fails when the stream ends in a read error other than `io.EOF` and when 65536
or more unterminated bytes are pending. -/
theorem exec_end_of_stream (b : BIRDClient) (hnl : NL ∉ b.pending) :
    (b.pending = [] → ∀ cmd n,
      (b.exec cmd).err ≠ none ∧
      ((b.conn.Write cmd).2 = none →
        (b.exec cmd).err = some (GoError.errorf (lit "reading response from bird failed"))) ∧
      (b.EnableProtocol n).2 ≠ none ∧ (b.DisableProtocol n).2 ≠ none ∧
      ((b.conn.Write (lit "enable " ++ n ++ lit "\n")).2 = none →
        (b.EnableProtocol n).2 =
          some (GoError.errorf (lit "reading response from bird failed"))) ∧
      ((b.conn.Write (lit "disable " ++ n ++ lit "\n")).2 = none →
        (b.DisableProtocol n).2 =
          some (GoError.errorf (lit "reading response from bird failed")))) ∧
    (b.Valid → ∀ cmd,
      ((b.exec cmd).err = none ↔ b.unterminatedReply cmd) ∧
      ((b.exec cmd).err = none → (b.exec cmd).out = bufio.dropCR b.pending)) ∧
    (b.Valid → ∀ n,
      (¬ b.unterminatedReply (lit "enable " ++ n ++ lit "\n") → (b.EnableProtocol n).2 ≠ none) ∧
      (b.unterminatedReply (lit "enable " ++ n ++ lit "\n") →
        (b.EnableProtocol n).2 = classifyEnable n (bufio.dropCR b.pending)) ∧
      (¬ b.unterminatedReply (lit "disable " ++ n ++ lit "\n") →
        (b.DisableProtocol n).2 ≠ none) ∧
      (b.unterminatedReply (lit "disable " ++ n ++ lit "\n") →
        (b.DisableProtocol n).2 = classifyDisable n (bufio.dropCR b.pending))) := by
  have hen : ∀ n, (b.exec (lit "enable " ++ n ++ lit "\n")).err ≠ none →
      (b.EnableProtocol n).2 ≠ none := by
    intro n h
    cases he : (b.exec (lit "enable " ++ n ++ lit "\n")).err with
    | none => exact absurd he h
    | some e =>
      simp only [BIRDClient.EnableProtocol, he]
      simp
  have hdis : ∀ n, (b.exec (lit "disable " ++ n ++ lit "\n")).err ≠ none →
      (b.DisableProtocol n).2 ≠ none := by
    intro n h
    cases he : (b.exec (lit "disable " ++ n ++ lit "\n")).err with
    | none => exact absurd he h
    | some e =>
      simp only [BIRDClient.DisableProtocol, he]
      simp
  refine ⟨fun hp cmd n => ?_, fun hv cmd => exec_verdict b cmd hv hnl, fun hv n => ?_⟩
  · refine ⟨(exec_empty b cmd hp).1, (exec_empty b cmd hp).2,
      hen n (exec_empty b _ hp).1, hdis n (exec_empty b _ hp).1, fun hw => ?_, fun hw => ?_⟩
    · simp only [BIRDClient.EnableProtocol, (exec_empty b _ hp).2 hw]
    · simp only [BIRDClient.DisableProtocol, (exec_empty b _ hp).2 hw]
  · have v1 := exec_verdict b (lit "enable " ++ n ++ lit "\n") hv hnl
    have v2 := exec_verdict b (lit "disable " ++ n ++ lit "\n") hv hnl
    refine ⟨fun h => hen n (fun h0 => h (v1.1.mp h0)), fun h => ?_,
      fun h => hdis n (fun h0 => h (v2.1.mp h0)), fun h => ?_⟩
    · have h0 := v1.1.mpr h
      simp only [BIRDClient.EnableProtocol, h0, v1.2 h0]
    · have h0 := v2.1.mpr h
      simp only [BIRDClient.DisableProtocol, h0, v2.2 h0]

theorem exec_end_of_stream_witness :
    ((exampleClient []).EnableProtocol (lit "eth0")).2 ≠ none ∧
      (resetClient.exec (lit "enable eth0\n")).err ≠ none ∧
      ((exampleClient [lit "eth0: dis"]).exec (lit "disable eth0\n")).out = lit "eth0: dis" :=
  ⟨((exec_end_of_stream (exampleClient []) (by decide)).1 (by decide)
      (lit "enable eth0\n") (lit "eth0")).2.2.1,
    fun h => absurd
      ((((exec_end_of_stream resetClient (by decide)).2.1 (by decide)
        (lit "enable eth0\n")).1).mp h) (by decide),
    (((exec_end_of_stream (exampleClient [lit "eth0: dis"]) (by decide)).2.1 (by decide)
      (lit "disable eth0\n")).2)
      ((((exec_end_of_stream (exampleClient [lit "eth0: dis"]) (by decide)).2.1 (by decide)
        (lit "disable eth0\n")).1).mpr (by decide))⟩

/-- C6 as stated fails: the stream holds the unterminated text
`"eth0: enabled"` and then ends cleanly, yet `exec` returns without error and
`EnableProtocol` succeeds. -/
theorem exec_end_of_stream_counterexample :
    NL ∉ (exampleClient [lit "eth0: enabled"]).pending ∧
      (exampleClient [lit "eth0: enabled"]).conn.rxEnd = GoError.eof ∧
      ((exampleClient [lit "eth0: enabled"]).exec (lit "enable eth0\n")).err = none ∧
      ((exampleClient [lit "eth0: enabled"]).EnableProtocol (lit "eth0")).2 = none := by
  decide

/-- C7 (amended): on a healthy session whose writes succeed and whose pending
response stream starts with the newline-terminated lines `l1, ..., lk`, each
shorter than 65536 bytes, `k` calls of `EnableProtocol`/`DisableProtocol` made
one after another return, the `i`-th, the classification of `li` less one
trailing carriage return, whatever the earlier calls returned; together they
consume exactly the `k` lines. -/
theorem calls_get_their_lines (b : BIRDClient) (calls : List Call) (lines : List (List Byte))
    (rest : List Byte) (hh : b.Healthy) (hw : ∀ o ∈ b.conn.txOutcomes, o = none)
    (hk : calls.length = lines.length)
    (hlines : ∀ l ∈ lines, NL ∉ l ∧ l.length < bufio.maxTokenSize)
    (hp : b.pending = (lines.map (fun l => l ++ [NL])).flatten ++ rest) :
    (b.run calls).2 = List.zipWith (fun k l => k.classify (bufio.dropCR l)) calls lines ∧
      (b.run calls).1.pending = rest := by
  induction calls generalizing b lines with
  | nil =>
    cases lines with
    | nil => exact ⟨rfl, by simpa [BIRDClient.run] using hp⟩
    | cons l ls => simp at hk
  | cons k ks ih =>
    cases lines with
    | nil => simp at hk
    | cons l ls =>
      obtain ⟨hl, hlen⟩ := hlines l (List.mem_cons_self _ _)
      have hp1 : b.pending = l ++ NL :: ((ls.map (fun l => l ++ [NL])).flatten ++ rest) := by
        rw [hp]; simp
      obtain ⟨h1, h2, h3, h4⟩ :=
        call_line b k l _ hh (net.Write_ok_of_all _ _ hw) hp1 hl hlen
      have hw1 : ∀ o ∈ (b.call k).1.conn.txOutcomes, o = none := by
        intro o ho
        rw [h4] at ho
        exact hw o (List.mem_of_mem_tail ho)
      obtain ⟨i1, i2⟩ := ih (b.call k).1 ls h2 hw1 (by simpa using hk)
        (fun l1 hl1 => hlines l1 (List.mem_cons_of_mem _ hl1)) h3
      refine ⟨?_, ?_⟩
      · simp only [BIRDClient.run, List.zipWith_cons_cons, h1, i1]
      · simpa only [BIRDClient.run] using i2

theorem calls_get_their_lines_witness :
    ((exampleClient [lit "eth0: enabled\neth0: already enabled\neth1: unknown pro",
        lit "tocol\neth0: disabled\n"]).run
      [Call.enable (lit "eth0"), Call.enable (lit "eth0"), Call.disable (lit "eth1"),
        Call.disable (lit "eth0")]).2 =
      [none, none,
        some (GoError.errorf (lit "failed to disable eth1: eth1: unknown protocol")), none] :=
  (calls_get_their_lines
    (exampleClient [lit "eth0: enabled\neth0: already enabled\neth1: unknown pro",
      lit "tocol\neth0: disabled\n"])
    [Call.enable (lit "eth0"), Call.enable (lit "eth0"), Call.disable (lit "eth1"),
      Call.disable (lit "eth0")]
    [lit "eth0: enabled", lit "eth0: already enabled", lit "eth1: unknown protocol",
      lit "eth0: disabled"]
    [] (by decide) (by decide) (by decide) (by decide) (by decide)).1

/-- C7 as stated fails: the reply `longLine`, which holds no newline and
contains `eth0: enabled`, would classify as success, yet the call
`EnableProtocol("eth0")` that meets it fails, the line being too long for the
scanner; and the call that meets the reply `"eth0: unknown protocol\r"` is
classified against another text, the reply without its carriage return. -/
theorem calls_get_their_lines_counterexample :
    (NL ∉ longLine ∧
      (exampleClient [longLine ++ [NL]]).pending = ([longLine].map (fun l => l ++ [NL])).flatten ∧
      List.zipWith Call.classify [Call.enable (lit "eth0")] [longLine] = [none] ∧
      ((exampleClient [longLine ++ [NL]]).run [Call.enable (lit "eth0")]).2 =
        [some (GoError.errorf (lit "reading response from bird failed"))]) ∧
    ((exampleClient [lit "eth0: unknown protocol\r\n"]).pending =
        ([lit "eth0: unknown protocol\r"].map (fun l => l ++ [NL])).flatten ∧
      ((exampleClient [lit "eth0: unknown protocol\r\n"]).run [Call.enable (lit "eth0")]).2 ≠
        List.zipWith Call.classify [Call.enable (lit "eth0")]
          [lit "eth0: unknown protocol\r"]) := by
  refine ⟨?_, by decide⟩
  have hin : (lit "eth0" ++ lit ": enabled") <:+: longLine :=
    ⟨List.replicate 65536 120, [], by
      rw [List.append_nil, longLine]
      exact congrArg (fun t => List.replicate 65536 120 ++ t) (by decide)⟩
  have hc := (strings.Contains_iff longLine _).mpr hin
  have hnl : NL ∉ List.replicate 65536 120 := by
    rw [List.mem_replicate]
    decide
  refine ⟨?_, ?_, ?_, ?_⟩
  · intro h
    rw [longLine, List.mem_append] at h
    rcases h with h | h
    · exact hnl h
    · exact absurd h (by decide)
  · simp [BIRDClient.pending, exampleClient, exampleConn, bufio.NewScanner, net.Conn.rxBytes]
  · simp only [List.zipWith_cons_cons, List.zipWith_nil_right, Call.classify, classifyEnable]
    rw [if_pos hc]
    split <;> rfl
  · have h := call_long_line (List.replicate 65536 120) (lit "eth0: enabled" ++ [NL])
      (Call.enable (lit "eth0")) (by rw [List.length_replicate]; rfl) hnl
    rw [← List.append_assoc] at h
    exact h

end Chirp
